import Mathlib

/-!
Verification of a self-contained JSON codec consisting of a serializer
(`myStringify`) and a recursive-descent parser (`myParse`).

The JavaScript source is embedded shallowly:

* JavaScript dynamic values are the inductive type `JsValue`; the
  `undefined` marker used by the source to signal "no representation"
  is the constructor `JsValue.undef`.
* JavaScript numbers are modelled as `Int`.  Every numeric literal
  appearing in the repository's tests is an integer, and for integers of
  ordinary magnitude `String(n)` is exactly the decimal representation
  modelled below.  The parser's handling of fractional/exponent literal
  syntax is modelled faithfully, but the numeric value produced for a
  non-integral literal is truncated to an integer; no property proved
  here depends on the value of a non-integral literal.
* Strings are Lean `String`s (sequences of characters).  The JavaScript
  code indexes UTF-16 code units, but none of its character tests can
  match half of a surrogate pair, so iterating characters is equivalent.
* The parser's cursor into the input is modelled by the remaining list
  of characters.  The source recurses without any structural bound and
  can genuinely fail to terminate (see the unterminated-string theorem),
  so every parsing function takes an explicit fuel argument; running out
  of fuel is the `ParseError.hang` outcome, and theorems about
  divergence quantify over all fuels.
-/

/-- Dynamic values: the tagged union over Null, Boolean, Number, String,
Array and Object, plus the `undefined` / "no representation" marker. -/
inductive JsValue where
  | null
  | boolean (b : Bool)
  | num (n : Int)
  | str (s : String)
  | arr (elems : List JsValue)
  | obj (entries : List (String × JsValue))
  | undef

/- Structural equality test on `JsValue` (automatic derivation is not
available for this nested inductive type). -/
mutual
def jsBeq : JsValue → JsValue → Bool
  | .null, .null => true
  | .boolean a, .boolean b => a == b
  | .num a, .num b => a == b
  | .str a, .str b => a == b
  | .arr a, .arr b => jsBeqL a b
  | .obj a, .obj b => jsBeqE a b
  | .undef, .undef => true
  | _, _ => false
def jsBeqL : List JsValue → List JsValue → Bool
  | [], [] => true
  | a :: as, b :: bs => jsBeq a b && jsBeqL as bs
  | _, _ => false
def jsBeqE : List (String × JsValue) → List (String × JsValue) → Bool
  | [], [] => true
  | (k, v) :: as, (k', v') :: bs => k == k' && jsBeq v v' && jsBeqE as bs
  | _, _ => false
end

mutual
theorem jsBeq_iff : ∀ a b, jsBeq a b = true ↔ a = b
  | .null, b => by cases b <;> simp [jsBeq]
  | .boolean x, b => by cases b <;> simp [jsBeq]
  | .num n, b => by cases b <;> simp [jsBeq]
  | .str s, b => by cases b <;> simp [jsBeq]
  | .arr es, b => by
      cases b <;> simp [jsBeq]
      exact jsBeqL_iff es _
  | .obj kvs, b => by
      cases b <;> simp [jsBeq]
      exact jsBeqE_iff kvs _
  | .undef, b => by cases b <;> simp [jsBeq]
theorem jsBeqL_iff : ∀ a b, jsBeqL a b = true ↔ a = b
  | [], b => by cases b <;> simp [jsBeqL]
  | a :: as, b => by
      cases b with
      | nil => simp [jsBeqL]
      | cons b bs => simp [jsBeqL, jsBeq_iff a b, jsBeqL_iff as bs]
theorem jsBeqE_iff : ∀ a b, jsBeqE a b = true ↔ a = b
  | [], b => by cases b <;> simp [jsBeqE]
  | (k, v) :: as, b => by
      cases b with
      | nil => simp [jsBeqE]
      | cons p bs =>
          obtain ⟨k', v'⟩ := p
          simp [jsBeqE, jsBeq_iff v v', jsBeqE_iff as bs, and_assoc]
end

instance : DecidableEq JsValue := fun a b => decidable_of_iff _ (jsBeq_iff a b)

instance {e a : Type} [DecidableEq e] [DecidableEq a] : DecidableEq (Except e a) := fun
  | .error x, .error y => decidable_of_iff (x = y) (by simp)
  | .error _, .ok _ => isFalse (by simp)
  | .ok _, .error _ => isFalse (by simp)
  | .ok x, .ok y => decidable_of_iff (x = y) (by simp)

/-! ## Decimal rendering of numbers

`String(value)` on an integer-valued number yields its decimal
representation.  The recursion on `n / 10` is given an explicit step
bound (always sufficient, see `natChars_eq_aux`) so that the definition
is structural and computes inside the kernel. -/

def digitChar (d : Nat) : Char := Char.ofNat (48 + d)

def natCharsAux : Nat → Nat → List Char
  | 0, _ => []
  | steps + 1, n =>
      if n < 10 then [digitChar n]
      else natCharsAux steps (n / 10) ++ [digitChar (n % 10)]

/-- Decimal digits of a natural number, most significant first. -/
def natChars (n : Nat) : List Char := natCharsAux (n + 1) n

/-- The text produced by JavaScript `String(value)` for an
integer-valued number. -/
def jsNumberString (n : Int) : List Char :=
  if n < 0 then '-' :: natChars n.natAbs else natChars n.natAbs

/-! ## Serializer (tree model, no replacer)

Translation of `myStringify` from the source with the `replacer`
argument left at its default `null`, so that `applyReplacer` is the
identity and is inlined away.  A replacer-carrying variant appears
further below.  Reference identity of the source's cycle stack is
modelled by structural equality; an ancestor is never structurally equal
to a strict descendant, so on inductive trees the check never fires,
exactly as `stack.includes` never finds a node of an acyclic graph on
the active path twice.  (Graphs with genuine sharing and cycles are
modelled separately by the heap embedding below.) -/

inductive StringifyError where
  | cyclic
  | hang
  deriving DecidableEq

/-- One level of indentation repeated `n` times. -/
def indentRep (ind : List Char) (n : Nat) : List Char :=
  (List.replicate n ind).flatten

/-- Join pieces with a separator, as `Array.prototype.join` does. -/
def joinSep (sep : List Char) : List (List Char) → List Char
  | [] => []
  | [x] => x
  | x :: y :: xs => x ++ sep ++ joinSep sep (y :: xs)

/-- Escaping of one character inside a string value: `"`, `\`,
backspace, form-feed, newline, carriage-return and tab map to their
two-character escapes, all other characters pass through. -/
def escapeChar (c : Char) : List Char :=
  if c = '"' then ['\\', '"']
  else if c = '\\' then ['\\', '\\']
  else if c = '\x08' then ['\\', 'b']
  else if c = '\x0C' then ['\\', 'f']
  else if c = '\n' then ['\\', 'n']
  else if c = '\r' then ['\\', 'r']
  else if c = '\t' then ['\\', 't']
  else [c]

def escapeString (cs : List Char) : List Char :=
  (cs.map escapeChar).flatten

mutual
/-- `stringifyValue` of the source, dispatching on the kind of the
value; `stack` is the active-visitation stack used for cycle detection,
and `none` is the `undefined` result for unsupported kinds.  The
source's `stringifyArray` and `stringifyObject` are inlined at their
unique call sites (the two container branches) so that the recursion is
structural: each pushes the container on the stack, serializes the
members at `depth + 1`, and wraps the joined body in brackets, with an
element whose result is `undefined` emitted as `null` and an entry
whose value's result is `undefined` dropped. -/
def stringifyValue (stack : List JsValue) (ind : List Char) (depth : Nat) :
    JsValue → Except StringifyError (Option (List Char))
  | .null => .ok (some "null".data)
  | .str s => .ok (some ('"' :: escapeString s.data ++ ['"']))
  | .num n => .ok (some (jsNumberString n))
  | .boolean b => .ok (some (if b then "true".data else "false".data))
  | .arr es =>
      if stack.contains (.arr es) then .error .cyclic
      else do
        let parts ← stringifyItems (JsValue.arr es :: stack) ind (depth + 1) es
        let body := joinSep
          (if ind.isEmpty then [','] else ',' :: '\n' :: indentRep ind (depth + 1))
          parts
        .ok (some ('[' ::
          (if ind.isEmpty then body
           else '\n' :: indentRep ind (depth + 1) ++ body ++ '\n' :: indentRep ind depth)
          ++ [']']))
  | .obj kvs =>
      if stack.contains (.obj kvs) then .error .cyclic
      else do
        let parts ← stringifyEntries (JsValue.obj kvs :: stack) ind depth kvs
        let body := joinSep (if ind.isEmpty then [','] else [',', '\n']) parts
        .ok (some ('{' ::
          (if ind.isEmpty then body
           else '\n' :: body ++ '\n' :: indentRep ind depth)
          ++ ['}']))
  | .undef => .ok none

/-- The element traversal of `stringifyArray`: elements in order, an
element whose result is `undefined` is emitted as `null`. -/
def stringifyItems (stack : List JsValue) (ind : List Char) (depth : Nat) :
    List JsValue → Except StringifyError (List (List Char))
  | [] => .ok []
  | v :: rest => do
      let c ← stringifyValue stack ind depth v
      let tail ← stringifyItems stack ind depth rest
      .ok (c.getD "null".data :: tail)

/-- The entry traversal of `stringifyObject`.  The source first
`filter`s entries by serializing every value at the object's own depth
and then `map`s the survivors, serializing each value again at
`depth + 1`; both passes are fused into one traversal here, which is
observationally equal because the two runs of `stringifyValue` on the
same value differ only in `depth`, and `depth` influences neither the
`undefined`-ness of the result nor the (unique) `cyclic` error.  The
key is interpolated verbatim between quotes, without `escapeString`. -/
def stringifyEntries (stack : List JsValue) (ind : List Char) (depth : Nat) :
    List (String × JsValue) → Except StringifyError (List (List Char))
  | [] => .ok []
  | (k, v) :: rest => do
      let keep ← stringifyValue stack ind depth v
      match keep with
      | none => stringifyEntries stack ind depth rest
      | some _ => do
          let c ← stringifyValue stack ind (depth + 1) v
          let tail ← stringifyEntries stack ind depth rest
          .ok (((if ind.isEmpty then [] else indentRep ind (depth + 1))
              ++ '"' :: k.data ++ ['"', ':']
              ++ (if ind.isEmpty then [] else [' '])
              ++ c.getD "undefined".data) :: tail)
end

/-- `myStringify(value, null, space)` with a numeric `space`: the indent
unit is `space` copies of the space character, and the root call is
`stringifyValue("", value, 0)` on an empty visitation stack. -/
def myStringify (value : JsValue) (space : Nat) :
    Except StringifyError (Option String) :=
  (stringifyValue [] (List.replicate space ' ') 0 value).map
    (fun o => o.map (fun cs => String.mk cs))

example : myStringify (.obj [("name", .str "Alice"), ("age", .num 25)]) 0 =
    .ok (some "\x7b\"name\":\"Alice\",\"age\":25\x7d") := by decide

/-! ## Serializer output shape: indentation and omission claims -/

/-- C8: with indent `2`, `stringify({name:"Alice", age:25}, null, 2)`
yields exactly a brace, then each entry on its own line prefixed by the
indent unit with a single space after the colon, then the closing brace
on its own line; with indent `0` the same object is rendered fully
inline with commas as the only separators and no space after the
colon. -/
theorem claim_C8 :
    myStringify (.obj [("name", .str "Alice"), ("age", .num 25)]) 2 =
      .ok (some "\x7b\n  \"name\": \"Alice\",\n  \"age\": 25\n\x7d") ∧
    myStringify (.obj [("name", .str "Alice"), ("age", .num 25)]) 0 =
      .ok (some "\x7b\"name\":\"Alice\",\"age\":25\x7d") := by
  constructor <;> decide

/-- C9: with indent `2`, the empty object serializes to a brace, a blank
interior line, and the closing brace (not `{}`), and the empty array
serializes to a bracket, an interior line holding one indent unit, and
the closing bracket (not `[]`). -/
theorem claim_C9 :
    myStringify (.obj []) 2 = .ok (some "\x7b\n\n\x7d") ∧
    myStringify (.arr []) 2 = .ok (some "[\n  \n]") := by
  constructor <;> decide

/-- C4: object keys are NOT escaped by the serializer: a key containing
a double quote is interpolated verbatim between the surrounding quotes,
producing malformed output, even though `escapeString` (the policy used
for string values) would map that character to the two-character escape.
This contradicts the claim that keys use the value-string escaping
policy. -/
theorem claim_C4 :
    myStringify (.obj [("a\"b", .null)]) 0 =
      .ok (some "\x7b\"a\"b\":null\x7d") ∧
    escapeString "a\"b".data = "a\\\"b".data := by
  constructor <;> decide

/-- C6: an array element whose serialization is the `undefined` signal
is emitted exactly as the literal `null` would be (so arrays never drop
slots), an object entry whose value serializes to the `undefined` signal
is omitted exactly as if the entry were absent (so objects may shrink),
and the claim's example `{a:1, b:undefined, c:{inner:undefined}}`
renders inline to `{"a":1,"c":{}}`. -/
theorem claim_C6 :
    (∀ stack ind d pre post,
        stringifyItems stack ind d (pre ++ JsValue.undef :: post) =
        stringifyItems stack ind d (pre ++ JsValue.null :: post)) ∧
    (∀ stack ind d pre post k,
        stringifyEntries stack ind d (pre ++ (k, JsValue.undef) :: post) =
        stringifyEntries stack ind d (pre ++ post)) ∧
    myStringify
        (.obj [("a", .num 1), ("b", .undef), ("c", .obj [("inner", .undef)])]) 0 =
      .ok (some "\x7b\"a\":1,\"c\":\x7b\x7d\x7d") := by
  refine ⟨?_, ?_, by decide⟩
  · intro stack ind d pre post
    induction pre with
    | nil => rfl
    | cons v rest ih => simp [stringifyItems, ih]
  · intro stack ind d pre post k
    induction pre with
    | nil => rfl
    | cons p rest ih =>
        obtain ⟨k', v'⟩ := p
        simp [stringifyEntries, ih]

/-! ## Parser

Translation of `myParse`.  The cursor is the remaining input; every
recursive function consumes one unit of fuel per call so that the
recursion is structural and computes in the kernel.  `myParse` supplies
`length + 1` units, which the adequacy lemmas below show is enough for
every terminating run; the runs on which the JavaScript source fails to
terminate exhaust any amount of fuel and yield `ParseError.hang`. -/

inductive ParseError where
  | syntaxError (msg : String)
  | hang
  deriving DecidableEq

/-- A reviver callback; returning `JsValue.undef` ("no representation")
asks for the entry to be deleted. -/
abbrev Reviver := String → JsValue → JsValue

/-- The whitespace class of the JavaScript regular expression `\s`:
space, tab, line feed, vertical tab, form feed, carriage return,
no-break space, Ogham space mark, the Unicode en/em-type spaces, line
and paragraph separators, narrow no-break space, medium mathematical
space, ideographic space and the byte-order mark. -/
def isJsWs (c : Char) : Bool :=
  c = ' ' || c = '\t' || c = '\n' || c = '\x0B' || c = '\x0C' || c = '\r' ||
  c = '\u00A0' || c = '\u1680' ||
  (0x2000 ≤ c.toNat && c.toNat ≤ 0x200A) ||
  c = '\u2028' || c = '\u2029' || c = '\u202F' || c = '\u205F' ||
  c = '\u3000' || c = '\uFEFF'

/-- `skipWhitespace` of the source; at end of input `json[index]` is
`undefined`, which `/\s/` does not match, so the loop stops. -/
def skipWhitespace : List Char → List Char
  | [] => []
  | c :: rest => if isJsWs c then skipWhitespace rest else c :: rest

/-- The escape table of `parseString`; an unrecognized escape character
is passed through literally. -/
def unescapeChar (c : Char) : Char :=
  if c = '"' then '"'
  else if c = '\\' then '\\'
  else if c = '/' then '/'
  else if c = 'b' then '\x08'
  else if c = 'f' then '\x0C'
  else if c = 'n' then '\n'
  else if c = 'r' then '\r'
  else if c = 't' then '\t'
  else c

/-- The scanning loop of `parseString` (`while (json[index] !== '"')`).
At end of input `json[index]` is `undefined`: it is not the closing
quote and not a backslash, so the source appends the text `undefined`
to the result and increments the cursor forever — the loop never
terminates, which here exhausts any fuel.  A backslash as the last
character likewise sends the cursor past the end. -/
def stringScan : Nat → List Char → Except ParseError (List Char × List Char)
  | 0, _ => .error .hang
  | fuel + 1, [] => (stringScan fuel []).map (fun (cs, r) => ("undefined".data ++ cs, r))
  | fuel + 1, c :: rest =>
      if c = '"' then .ok ([], rest)
      else if c = '\\' then
        match rest with
        | [] => (stringScan fuel []).map (fun (cs, r) => ("undefined".data ++ cs, r))
        | e :: rest' =>
            (stringScan fuel rest').map (fun (cs, r) => (unescapeChar e :: cs, r))
      else (stringScan fuel rest).map (fun (cs, r) => (c :: cs, r))

/-- `parseString` of the source: the cursor is advanced past whatever
character it sits on (assumed to be the opening quote — the callers for
object keys do not check this) and the scan runs to the closing
quote. -/
def parseString (fuel : Nat) : List Char → Except ParseError (String × List Char)
  | [] => (stringScan fuel []).map (fun (cs, r) => (String.mk cs, r))
  | _ :: rest => (stringScan fuel rest).map (fun (cs, r) => (String.mk cs, r))

/-- `isDigit` of the source. -/
def isDigit (c : Char) : Bool := '0' ≤ c && c ≤ '9'

/-- Longest run of decimal digits at the front of the input. -/
def takeDigits : List Char → (List Char × List Char)
  | [] => ([], [])
  | c :: rest =>
      if isDigit c then
        let (ds, r) := takeDigits rest
        (c :: ds, r)
      else ([], c :: rest)

/-- Numeric value of a digit run (`Number` on an all-digit string). -/
def digitsToNat (ds : List Char) : Nat :=
  ds.foldl (fun a c => 10 * a + (c.toNat - 48)) 0

/-- The value of a matched numeric literal
`[-] intDs [. fracDs] [e[±]expDs]`, i.e. the mathematical value
`± digits(intDs ++ fracDs) · 10 ^ (± expDs - |fracDs|)`.  When the
exponent is negative the quotient is truncated: the model assigns
non-integral literals an integer value (JavaScript produces a
fractional double there); no property proved in this file depends on
the value of a non-integral literal. -/
def numValue (neg : Bool) (intDs fracDs : List Char) (expNeg : Bool)
    (expDs : List Char) : Int :=
  let m : Nat := digitsToNat (intDs ++ fracDs)
  let e : Int := (if expNeg then -(digitsToNat expDs : Int) else (digitsToNat expDs : Int))
      - fracDs.length
  let mag : Int :=
    if 0 ≤ e then (m : Int) * (10 : Int) ^ e.toNat
    else (m : Int) / (10 : Int) ^ (-e).toNat
  if neg then -mag else mag

/-- `parseNumber` of the source: the sticky regular expression
`-?\d+(\.\d+)?([eE][+-]?\d+)?` anchored at the cursor.  A dot or
exponent marker not followed by a digit is not part of the match
(the optional groups backtrack away); no match at all — a lone minus
sign or none of the branches of `parseValue` — is a syntax error. -/
def numberSign (s : List Char) : Bool × List Char :=
  match s with
  | [] => (false, [])
  | c0 :: rest => if c0 = '-' then (true, rest) else (false, c0 :: rest)

def numberFrac (s2 : List Char) : List Char × List Char :=
  match s2 with
  | [] => (([] : List Char), s2)
  | c1 :: rest =>
      if c1 = '.' then
        let (fs, r) := takeDigits rest
        if fs.isEmpty then (([] : List Char), c1 :: rest) else (fs, r)
      else (([] : List Char), c1 :: rest)

def numberExp (s3 : List Char) : Bool × List Char × List Char :=
  match s3 with
  | [] => (false, ([] : List Char), s3)
  | e :: r1 =>
      if e = 'e' || e = 'E' then
        match r1 with
        | [] => (false, ([] : List Char), s3)
        | c1 :: r2 =>
            if c1 = '+' then
              let (xs, r3) := takeDigits r2
              if xs.isEmpty then (false, ([] : List Char), s3) else (false, xs, r3)
            else if c1 = '-' then
              let (xs, r3) := takeDigits r2
              if xs.isEmpty then (false, ([] : List Char), s3) else (true, xs, r3)
            else
              let (xs, r3) := takeDigits (c1 :: r2)
              if xs.isEmpty then (false, ([] : List Char), s3) else (false, xs, r3)
      else (false, ([] : List Char), s3)

def parseNumber (s : List Char) : Except ParseError (JsValue × List Char) :=
  let sg := numberSign s
  let dg := takeDigits sg.2
  if dg.1.isEmpty then .error (.syntaxError "Invalid number")
  else
    let fr := numberFrac dg.2
    let ex := numberExp fr.2
    .ok (.num (numValue sg.1 dg.1 fr.1 ex.1 ex.2.1), ex.2.2)

/-- `parseLiteral` of the source: compare the slice at the cursor
against the keyword and advance past it on success. -/
def parseLiteral (w : List Char) (v : JsValue) (s : List Char) :
    Except ParseError (JsValue × List Char) :=
  if s.take w.length = w then .ok (v, s.drop w.length)
  else .error (.syntaxError "Unexpected token: ${literal}")

/-- JavaScript property assignment `result[key] = value`: an existing
key keeps its position and is overwritten, a new key is appended. -/
def objInsert (kvs : List (String × JsValue)) (k : String) (v : JsValue) :
    List (String × JsValue) :=
  if kvs.any (fun p => p.1 == k) then
    kvs.map (fun p => if p.1 == k then (k, v) else p)
  else kvs ++ [(k, v)]

/-- `typeof x === "object" && x !== null`. -/
def isContainer : JsValue → Bool
  | .arr _ => true
  | .obj _ => true
  | _ => false

/-! ## Reviver application

`applyReviver` of the source wraps a freshly completed container in a
synthetic holder keyed by the empty string and runs `recursiveRevive`
over it.  `recursiveRevive` visits each own key of a holder in order,
calls the reviver, deletes the entry when the reviver answers
`undefined` (for an array this leaves a hole, modelled as an `undef`
element — the array's length is unchanged), stores the answer
otherwise, and recurses into the stored answer when it is a container.
Because the reviver may keep answering fresh containers this recursion
has no structural bound, so it is fueled; reference identity of the
synthetic holder's content is modelled by structural equality (a
reviver returning a distinct but equal copy of its argument is
identified with one returning the argument itself). -/

mutual
def reviveInto (r : Reviver) : Nat → JsValue → Option JsValue
  | 0, _ => none
  | fuel + 1, v =>
      match v with
      | .arr es => (reviveElems r fuel 0 es).map .arr
      | .obj kvs => (reviveEntries r fuel kvs).map .obj
      | other => some other

def reviveElems (r : Reviver) : Nat → Nat → List JsValue → Option (List JsValue)
  | 0, _, _ => none
  | _ + 1, _, [] => some []
  | fuel + 1, i, v :: rest =>
      let newValue := r (toString i) v
      if newValue = .undef then
        (reviveElems r fuel (i + 1) rest).map (fun tail => JsValue.undef :: tail)
      else if isContainer newValue then
        match reviveInto r fuel newValue with
        | none => none
        | some w => (reviveElems r fuel (i + 1) rest).map (fun tail => w :: tail)
      else (reviveElems r fuel (i + 1) rest).map (fun tail => newValue :: tail)

def reviveEntries (r : Reviver) : Nat → List (String × JsValue) →
    Option (List (String × JsValue))
  | 0, _ => none
  | _ + 1, [] => some []
  | fuel + 1, (k, v) :: rest =>
      let newValue := r k v
      if newValue = .undef then reviveEntries r fuel rest
      else if isContainer newValue then
        match reviveInto r fuel newValue with
        | none => none
        | some w => (reviveEntries r fuel rest).map (fun tail => (k, w) :: tail)
      else (reviveEntries r fuel rest).map (fun tail => (k, newValue) :: tail)
end

/-- The holder walk of `applyReviver`, as a partial function (`none` is
divergence of the unbounded `recursiveRevive`).  For a container `v` the
synthetic holder `{"": v}` is walked: the reviver is called once on
`("", v)`; an `undefined` answer deletes the holder entry and leaves
`v` untouched; a container answer is recursed into.  The function
returns the original `v` — mutations are visible in it exactly when the
reviver's answer was `v` itself. -/
def applyReviverO (r : Reviver) (rfuel : Nat) (v : JsValue) : Option JsValue :=
  if isContainer v then
    let h := r "" v
    if h = .undef then some v
    else if isContainer h then
      match reviveInto r rfuel h with
      | none => none
      | some h' => some (if h = v then h' else v)
    else some v
  else some v

/-- `applyReviver` of the source: the identity without a reviver, the
holder walk with one. -/
def applyReviver (ro : Option Reviver) (rfuel : Nat) (v : JsValue) :
    Except ParseError JsValue :=
  match ro with
  | none => .ok v
  | some r =>
      match applyReviverO r rfuel v with
      | none => .error .hang
      | some w => .ok w

/-! ## The recursive-descent core

`parseObject` and `parseArray` consume the opening bracket (done by
`parseValue` handing over the tail), return the revived empty container
on an immediate closing bracket, and otherwise run their member loop;
both are inlined into `parseValue`'s dispatch so that every recursive
call consumes exactly one unit of fuel.  The loops are the source's
`while (true)` bodies. -/

mutual
def parseValue (ro : Option Reviver) (rfuel : Nat) :
    Nat → List Char → Except ParseError (JsValue × List Char)
  | 0, _ => .error .hang
  | fuel + 1, s =>
      match skipWhitespace s with
      | [] => .error (.syntaxError "Unexpected character: ${char}")
      | c :: rest =>
          if c = '"' then
            (parseString fuel (c :: rest)).map (fun (str, r) => (.str str, r))
          else if c = '{' then
            match skipWhitespace rest with
            | [] => parseObjectLoop ro rfuel fuel [] []
            | c2 :: r2 =>
                if c2 = '}' then
                  (applyReviver ro rfuel (.obj [])).map (fun v => (v, r2))
                else parseObjectLoop ro rfuel fuel [] (c2 :: r2)
          else if c = '[' then
            match skipWhitespace rest with
            | [] => parseArrayLoop ro rfuel fuel [] []
            | c2 :: r2 =>
                if c2 = ']' then
                  (applyReviver ro rfuel (.arr [])).map (fun v => (v, r2))
                else parseArrayLoop ro rfuel fuel [] (c2 :: r2)
          else if c = 't' then parseLiteral "true".data (.boolean true) (c :: rest)
          else if c = 'f' then parseLiteral "false".data (.boolean false) (c :: rest)
          else if c = 'n' then parseLiteral "null".data .null (c :: rest)
          else if c = '-' || isDigit c then parseNumber (c :: rest)
          else .error (.syntaxError "Unexpected character: ${char}")

def parseObjectLoop (ro : Option Reviver) (rfuel : Nat) :
    Nat → List (String × JsValue) → List Char →
    Except ParseError (JsValue × List Char)
  | 0, _, _ => .error .hang
  | fuel + 1, acc, s => do
      let (key, s1) ← parseString fuel (skipWhitespace s)
      match skipWhitespace s1 with
      | [] => .error (.syntaxError "Expected \":\"")
      | c :: s2 =>
          if c = ':' then do
            let (value, s3) ← parseValue ro rfuel fuel (skipWhitespace s2)
            let acc' := objInsert acc key value
            match skipWhitespace s3 with
            | [] => .error (.syntaxError "Expected \",\"")
            | c2 :: s4 =>
                if c2 = '}' then
                  (applyReviver ro rfuel (.obj acc')).map (fun v => (v, s4))
                else if c2 = ',' then parseObjectLoop ro rfuel fuel acc' s4
                else .error (.syntaxError "Expected \",\"")
          else .error (.syntaxError "Expected \":\"")

def parseArrayLoop (ro : Option Reviver) (rfuel : Nat) :
    Nat → List JsValue → List Char → Except ParseError (JsValue × List Char)
  | 0, _, _ => .error .hang
  | fuel + 1, acc, s => do
      let (v, s1) ← parseValue ro rfuel fuel (skipWhitespace s)
      let acc' := acc ++ [v]
      match skipWhitespace s1 with
      | [] => .error (.syntaxError "Expected \",\"")
      | c2 :: s2 =>
          if c2 = ']' then
            (applyReviver ro rfuel (.arr acc')).map (fun w => (w, s2))
          else if c2 = ',' then parseArrayLoop ro rfuel fuel acc' s2
          else .error (.syntaxError "Expected \",\"")
end

/-- The top level of `myParse`: parse one value, skip trailing
whitespace, require end of input, and make the final `reviver("", ·)`
call when a reviver is present (even when the result is not a
container). -/
def myParseAux (ro : Option Reviver) (rfuel fuel : Nat) (s : List Char) :
    Except ParseError JsValue := do
  let (result, rest) ← parseValue ro rfuel fuel s
  if skipWhitespace rest = [] then
    match ro with
    | some r => .ok (r "" result)
    | none => .ok result
  else .error (.syntaxError "Unexpected extra characters")

/-- `myParse(json)` with no reviver; the fuel `length + 1` is enough for
every terminating run of the source (see the adequacy lemmas below). -/
def myParse (json : String) : Except ParseError JsValue :=
  myParseAux none 0 (json.length + 1) json.data

/-- `myParse(json, reviver)`; `rfuel` bounds the depth of the reviver
recursion (`recursiveRevive` has no structural bound of its own). -/
def myParseWith (reviver : Reviver) (rfuel : Nat) (json : String) :
    Except ParseError JsValue :=
  myParseAux (some reviver) rfuel (json.length + 1) json.data

example : myParse "42" = .ok (.num 42) := by decide
example : myParse "  -42  " = .ok (.num (-42)) := by decide
example : myParse "[1,null,true,\x7b\"key\":\"value\"\x7d]" =
    .ok (.arr [.num 1, .null, .boolean true, .obj [("key", .str "value")]]) := by
  decide
example : myParse "\"line\\nfeed\"" = .ok (.str "line\nfeed") := by decide
example : myParse "\x7b\"a\":\x7d" =
    .error (.syntaxError "Unexpected character: ${char}") := by decide
example : myParse "[1,2" = .error (.syntaxError "Expected \",\"") := by decide

/-! ## Non-termination on an unterminated string literal -/

/-- Once the string scan has run past the end of the input it never
returns: every amount of fuel is exhausted. -/
theorem stringScan_nil : ∀ fuel, stringScan fuel [] = .error .hang := by
  intro fuel
  induction fuel with
  | zero => rfl
  | succ f ih => simp [stringScan, ih, Except.map]

/-- C3: on the input `"abc` — text that ends inside a string literal
with no closing quote — the source's `parseString` loop never
terminates (at end of input `json[index]` is `undefined`, which never
equals the closing quote, so the cursor runs away); in the embedding
every amount of fuel is exhausted.  This refutes the claim that every
call to parse runs to completion, returning a value or failing
synchronously with a SyntaxError. -/
theorem claim_C3 : ∀ fuel, myParseAux none 0 fuel "\"abc".data = .error .hang := by
  intro fuel
  have habc : ∀ f, stringScan f "abc".data = .error .hang := by
    intro f
    match f with
    | 0 => rfl
    | 1 => rfl
    | 2 => rfl
    | 3 => rfl
    | f + 4 => simp [stringScan, stringScan_nil, Except.map]
  match fuel with
  | 0 => rfl
  | f + 1 =>
      have hpv : parseValue none 0 (f + 1) "\"abc".data = .error .hang := by
        have hskip : skipWhitespace "\"abc".data = "\"abc".data := rfl
        rw [parseValue, hskip]
        simp [parseString, habc, Except.map]
      simp only [myParseAux, hpv]
      rfl

/-! ## Reviver: claimed semantics versus the source's semantics -/

/- The reviver semantics described by the specification (modelled from
the spec, for comparison only): after the full tree is parsed, walk it
bottom-up visiting every node exactly once — children first, in order,
each child replaced by the transform of its already-revived self (a
no-representation answer deletes an object entry and leaves a hole in
an array) — and produce `transform("", revivedRoot)` as the ultimate
result. -/
mutual
/-- One node of the claimed walk: children first, then the node's own
transform call — each parsed node passed to the transform exactly
once. -/
def specRevive (r : Reviver) (key : String) : JsValue → JsValue
  | .arr es => r key (.arr (specReviveElems r 0 es))
  | .obj kvs => r key (.obj (specReviveEntries r kvs))
  | leaf => r key leaf

def specReviveElems (r : Reviver) (i : Nat) : List JsValue → List JsValue
  | [] => []
  | v :: rest =>
      let w := specRevive r (toString i) v
      (if w = .undef then JsValue.undef else w) :: specReviveElems r (i + 1) rest

def specReviveEntries (r : Reviver) : List (String × JsValue) →
    List (String × JsValue)
  | [] => []
  | (k, v) :: rest =>
      let w := specRevive r k v
      if w = .undef then specReviveEntries r rest
      else (k, w) :: specReviveEntries r rest
end

/-- Parsing followed by the reviver walk the specification describes. -/
def specParse (r : Reviver) (json : String) : Except ParseError JsValue :=
  (myParse json).map (fun v => specRevive r "" v)

/-- A transform that increments every number and keeps everything else:
applying it to a node once, twice or three times gives visibly different
results. -/
def incNumbers : Reviver := fun _ v =>
  match v with
  | .num n => .num (n + 1)
  | other => other

/- What the source actually computes with a reviver, phrased as a
post-processing pass over the plainly parsed tree: every container is
passed through `applyReviver` when it completes, children first, so a
node nested in `k` completed containers is fed to the reviver once per
enclosing container. -/
mutual
/-- Children of a container are post-processed first, then the
container itself goes through `applyReviver`'s holder walk. -/
def deepRevive (r : Reviver) (rfuel : Nat) : JsValue → Option JsValue
  | .arr es => do
      let es' ← deepReviveItems r rfuel es
      applyReviverO r rfuel (.arr es')
  | .obj kvs => do
      let kvs' ← deepReviveEnts r rfuel kvs
      applyReviverO r rfuel (.obj kvs')
  | leaf => some leaf

def deepReviveItems (r : Reviver) (rfuel : Nat) :
    List JsValue → Option (List JsValue)
  | [] => some []
  | v :: rest => do
      let w ← deepRevive r rfuel v
      let tail ← deepReviveItems r rfuel rest
      some (w :: tail)

def deepReviveEnts (r : Reviver) (rfuel : Nat) :
    List (String × JsValue) → Option (List (String × JsValue))
  | [] => some []
  | (k, v) :: rest => do
      let w ← deepRevive r rfuel v
      let tail ← deepReviveEnts r rfuel rest
      some ((k, w) :: tail)
end

/-! ## Support lemmas for the reviver commutation -/

@[simp] theorem exceptBind_ok {e a b : Type} (x : a) (f : a → Except e b) :
    (Except.ok x : Except e a) >>= f = f x := rfl

@[simp] theorem exceptBind_error {e a b : Type} (x : e) (f : a → Except e b) :
    (Except.error x : Except e a) >>= f = .error x := rfl

@[simp] theorem exceptMap_ok {e a b : Type} (x : a) (f : a → b) :
    (Except.ok x : Except e a).map f = .ok (f x) := rfl

@[simp] theorem exceptMap_error {e a b : Type} (x : e) (f : a → b) :
    (Except.error x : Except e a).map f = .error x := rfl

@[simp] theorem deepRevive_null (r : Reviver) (rf : Nat) :
    deepRevive r rf .null = some .null := rfl

@[simp] theorem deepRevive_boolean (r : Reviver) (rf : Nat) (b : Bool) :
    deepRevive r rf (.boolean b) = some (.boolean b) := rfl

@[simp] theorem deepRevive_num (r : Reviver) (rf : Nat) (n : Int) :
    deepRevive r rf (.num n) = some (.num n) := rfl

@[simp] theorem deepRevive_str (r : Reviver) (rf : Nat) (s : String) :
    deepRevive r rf (.str s) = some (.str s) := rfl

@[simp] theorem deepRevive_undef (r : Reviver) (rf : Nat) :
    deepRevive r rf .undef = some .undef := rfl

theorem deepReviveEnts_keys (r : Reviver) (rf : Nat) :
    ∀ kvs kvsR, deepReviveEnts r rf kvs = some kvsR →
      kvs.map Prod.fst = kvsR.map Prod.fst := by
  intro kvs
  induction kvs with
  | nil => intro kvsR h; simp [deepReviveEnts] at h; simp [← h]
  | cons p rest ih =>
      obtain ⟨k, v⟩ := p
      intro kvsR h
      simp only [deepReviveEnts, Option.bind_eq_bind] at h
      cases hv : deepRevive r rf v with
      | none => rw [hv] at h; simp at h
      | some w =>
          rw [hv] at h
          cases ht : deepReviveEnts r rf rest with
          | none => rw [ht] at h; simp at h
          | some tail =>
              rw [ht] at h
              simp at h
              subst h
              simp [ih tail ht]

theorem deepReviveEnts_snoc (r : Reviver) (rf : Nat) :
    ∀ kvs kvsR k v w, deepReviveEnts r rf kvs = some kvsR →
      deepRevive r rf v = some w →
      deepReviveEnts r rf (kvs ++ [(k, v)]) = some (kvsR ++ [(k, w)]) := by
  intro kvs
  induction kvs with
  | nil =>
      intro kvsR k v w h hv
      simp [deepReviveEnts] at h
      subst h
      simp [deepReviveEnts, hv]
  | cons p rest ih =>
      obtain ⟨k1, v1⟩ := p
      intro kvsR k v w h hv
      simp only [deepReviveEnts, Option.bind_eq_bind] at h ⊢
      cases hv1 : deepRevive r rf v1 with
      | none => rw [hv1] at h; simp at h
      | some w1 =>
          rw [hv1] at h
          cases ht : deepReviveEnts r rf rest with
          | none => rw [ht] at h; simp at h
          | some tail =>
              rw [ht] at h
              simp at h
              subst h
              simp [ih tail k v w ht hv]

theorem deepReviveItems_snoc (r : Reviver) (rf : Nat) :
    ∀ es esR v w, deepReviveItems r rf es = some esR →
      deepRevive r rf v = some w →
      deepReviveItems r rf (es ++ [v]) = some (esR ++ [w]) := by
  intro es
  induction es with
  | nil =>
      intro esR v w h hv
      simp [deepReviveItems] at h
      subst h
      simp [deepReviveItems, hv]
  | cons e rest ih =>
      intro esR v w h hv
      simp only [deepReviveItems, Option.bind_eq_bind] at h ⊢
      cases he : deepRevive r rf e with
      | none => rw [he] at h; simp at h
      | some we =>
          rw [he] at h
          cases ht : deepReviveItems r rf rest with
          | none => rw [ht] at h; simp at h
          | some tail =>
              rw [ht] at h
              simp at h
              subst h
              simp [ih tail v w ht hv]

theorem deepReviveEnts_overwrite (r : Reviver) (rf : Nat) (k : String)
    (v w : JsValue) (hv : deepRevive r rf v = some w) :
    ∀ kvs kvsR, deepReviveEnts r rf kvs = some kvsR →
      deepReviveEnts r rf (kvs.map (fun p => if p.1 == k then (k, v) else p)) =
        some (kvsR.map (fun p => if p.1 == k then (k, w) else p)) := by
  intro kvs
  induction kvs with
  | nil => intro kvsR h; simp [deepReviveEnts] at h; subst h; simp [deepReviveEnts]
  | cons p rest ih =>
      obtain ⟨k1, v1⟩ := p
      intro kvsR h
      simp only [deepReviveEnts, Option.bind_eq_bind] at h
      cases hv1 : deepRevive r rf v1 with
      | none => rw [hv1] at h; simp at h
      | some w1 =>
          rw [hv1] at h
          cases ht : deepReviveEnts r rf rest with
          | none => rw [ht] at h; simp at h
          | some tail =>
              rw [ht] at h
              simp at h
              subst h
              simp only [List.map_cons]
              by_cases hk : k1 = k
              · have hheadL : (if (k1 == k) = true then (k, v) else (k1, v1)) = (k, v) := by
                  simp [hk]
                have hheadR : (if (k1 == k) = true then (k, w) else (k1, w1)) = (k, w) := by
                  simp [hk]
                rw [hheadL, hheadR]
                simp only [deepReviveEnts, Option.bind_eq_bind, hv, ih tail ht,
                  Option.bind_some]
                rfl
              · have hheadL : (if (k1 == k) = true then (k, v) else (k1, v1)) = (k1, v1) := by
                  simp [hk]
                have hheadR : (if (k1 == k) = true then (k, w) else (k1, w1)) = (k1, w1) := by
                  simp [hk]
                rw [hheadL, hheadR]
                simp only [deepReviveEnts, Option.bind_eq_bind, hv1, ih tail ht,
                  Option.bind_some]
                rfl

theorem anyKey_congr (p : String → Bool) :
    ∀ (a b : List (String × JsValue)), a.map Prod.fst = b.map Prod.fst →
      a.any (fun q => p q.1) = b.any (fun q => p q.1) := by
  intro a
  induction a with
  | nil =>
      intro b h
      cases b with
      | nil => rfl
      | cons q bs => simp at h
  | cons q as ih =>
      intro b h
      cases b with
      | nil => simp at h
      | cons q2 bs =>
          simp only [List.map_cons, List.cons.injEq] at h
          simp [List.any_cons, h.1, ih bs h.2]

theorem deepReviveEnts_objInsert (r : Reviver) (rf : Nat)
    (kvs kvsR : List (String × JsValue)) (k : String) (v w : JsValue)
    (h : deepReviveEnts r rf kvs = some kvsR)
    (hv : deepRevive r rf v = some w) :
    deepReviveEnts r rf (objInsert kvs k v) = some (objInsert kvsR k w) := by
  have hkeys := deepReviveEnts_keys r rf kvs kvsR h
  have hany : kvs.any (fun p => p.1 == k) = kvsR.any (fun p => p.1 == k) :=
    anyKey_congr (fun x => x == k) kvs kvsR hkeys
  unfold objInsert
  rw [← hany]
  by_cases hc : kvs.any (fun p => p.1 == k)
  · simp only [hc, if_true]
    exact deepReviveEnts_overwrite r rf k v w hv kvs kvsR h
  · simp only [hc, if_false]
    exact deepReviveEnts_snoc r rf kvs kvsR k v w h hv

theorem parseLiteral_ok (w : List Char) (v : JsValue) (s : List Char)
    (p : JsValue × List Char) (h : parseLiteral w v s = .ok p) :
    p = (v, s.drop w.length) := by
  unfold parseLiteral at h
  split at h
  · simp at h
    exact h.symm
  · simp at h

theorem parseNumber_ok (s : List Char) (w : JsValue) (rest : List Char)
    (h : parseNumber s = .ok (w, rest)) : ∃ n, w = .num n := by
  unfold parseNumber at h
  dsimp only at h
  split at h
  · simp at h
  · simp at h
    exact ⟨_, h.1.symm⟩

theorem applyReviver_none (rf : Nat) (v : JsValue) :
    applyReviver none rf v = .ok v := rfl

theorem applyReviver_some (r : Reviver) (rf : Nat) (v : JsValue) :
    applyReviver (some r) rf v =
      match applyReviverO r rf v with
      | none => .error .hang
      | some w => .ok w := rfl


mutual
theorem parseValue_reviver (r : Reviver) (rf : Nat) :
    ∀ fuel s w rest, parseValue (some r) rf fuel s = .ok (w, rest) →
      ∃ v, parseValue none 0 fuel s = .ok (v, rest) ∧ deepRevive r rf v = some w
  | 0, s, w, rest => by
      intro h
      simp [parseValue] at h
  | fuel + 1, s, w, rest => by
      intro h
      simp only [parseValue] at h ⊢
      cases hws : skipWhitespace s with
      | nil => rw [hws] at h; simp at h
      | cons c cs =>
          rw [hws] at h
          dsimp only at h ⊢
          by_cases hq : c = '"'
          · rw [if_pos hq] at h ⊢
            cases hps : parseString fuel (c :: cs) with
            | error e => rw [hps] at h; simp at h
            | ok p =>
                obtain ⟨st, r1⟩ := p
                rw [hps] at h
                simp at h
                obtain ⟨hw, hr⟩ := h
                subst hw
                subst hr
                exact ⟨.str st, by simp, by simp⟩
          · rw [if_neg hq] at h ⊢
            by_cases hob : c = '{'
            · rw [if_pos hob] at h ⊢
              cases hws2 : skipWhitespace cs with
              | nil =>
                  rw [hws2] at h
                  dsimp only at h ⊢
                  obtain ⟨accF, hpl, hdr⟩ :=
                    parseObjectLoop_reviver r rf fuel [] [] [] w rest rfl h
                  exact ⟨.obj accF, hpl, hdr⟩
              | cons c2 r2 =>
                  rw [hws2] at h
                  dsimp only at h ⊢
                  by_cases hcb : c2 = '}'
                  · rw [if_pos hcb] at h ⊢
                    rw [applyReviver_some] at h
                    cases hao : applyReviverO r rf (.obj []) with
                    | none => rw [hao] at h; simp at h
                    | some w0 =>
                        rw [hao] at h
                        simp at h
                        obtain ⟨hw, hr⟩ := h
                        subst hw
                        subst hr
                        refine ⟨.obj [], by rw [applyReviver_none]; rfl, ?_⟩
                        simp [deepRevive, deepReviveEnts, hao]
                  · rw [if_neg hcb] at h ⊢
                    obtain ⟨accF, hpl, hdr⟩ :=
                      parseObjectLoop_reviver r rf fuel [] [] (c2 :: r2) w rest rfl h
                    exact ⟨.obj accF, hpl, hdr⟩
            · rw [if_neg hob] at h ⊢
              by_cases hab : c = '['
              · rw [if_pos hab] at h ⊢
                cases hws2 : skipWhitespace cs with
                | nil =>
                    rw [hws2] at h
                    dsimp only at h ⊢
                    obtain ⟨accF, hpl, hdr⟩ :=
                      parseArrayLoop_reviver r rf fuel [] [] [] w rest rfl h
                    exact ⟨.arr accF, hpl, hdr⟩
                | cons c2 r2 =>
                    rw [hws2] at h
                    dsimp only at h ⊢
                    by_cases hcb : c2 = ']'
                    · rw [if_pos hcb] at h ⊢
                      rw [applyReviver_some] at h
                      cases hao : applyReviverO r rf (.arr []) with
                      | none => rw [hao] at h; simp at h
                      | some w0 =>
                          rw [hao] at h
                          simp at h
                          obtain ⟨hw, hr⟩ := h
                          subst hw
                          subst hr
                          refine ⟨.arr [], by rw [applyReviver_none]; rfl, ?_⟩
                          simp [deepRevive, deepReviveItems, hao]
                    · rw [if_neg hcb] at h ⊢
                      obtain ⟨accF, hpl, hdr⟩ :=
                        parseArrayLoop_reviver r rf fuel [] [] (c2 :: r2) w rest rfl h
                      exact ⟨.arr accF, hpl, hdr⟩
              · rw [if_neg hab] at h ⊢
                by_cases htl : c = 't'
                · rw [if_pos htl] at h ⊢
                  have hp := parseLiteral_ok "true".data (.boolean true) (c :: cs) (w, rest) h
                  have hw : w = .boolean true := by
                    rw [Prod.ext_iff] at hp
                    exact hp.1
                  exact ⟨w, h, by rw [hw]; simp⟩
                · rw [if_neg htl] at h ⊢
                  by_cases hfl : c = 'f'
                  · rw [if_pos hfl] at h ⊢
                    have hp := parseLiteral_ok "false".data (.boolean false) (c :: cs) (w, rest) h
                    have hw : w = .boolean false := by
                      rw [Prod.ext_iff] at hp
                      exact hp.1
                    exact ⟨w, h, by rw [hw]; simp⟩
                  · rw [if_neg hfl] at h ⊢
                    by_cases hnl : c = 'n'
                    · rw [if_pos hnl] at h ⊢
                      have hp := parseLiteral_ok "null".data .null (c :: cs) (w, rest) h
                      have hw : w = .null := by
                        rw [Prod.ext_iff] at hp
                        exact hp.1
                      exact ⟨w, h, by rw [hw]; simp⟩
                    · rw [if_neg hnl] at h ⊢
                      by_cases hnum : c = '-' || isDigit c
                      · rw [if_pos hnum] at h ⊢
                        obtain ⟨n, hn⟩ := parseNumber_ok (c :: cs) w rest h
                        exact ⟨w, h, by rw [hn]; simp⟩
                      · rw [if_neg hnum] at h
                        simp at h

theorem parseObjectLoop_reviver (r : Reviver) (rf : Nat) :
    ∀ fuel acc accR s w rest,
      deepReviveEnts r rf acc = some accR →
      parseObjectLoop (some r) rf fuel accR s = .ok (w, rest) →
      ∃ accF, parseObjectLoop none 0 fuel acc s = .ok (.obj accF, rest) ∧
        deepRevive r rf (.obj accF) = some w
  | 0, acc, accR, s, w, rest => by
      intro hds h
      simp [parseObjectLoop] at h
  | fuel + 1, acc, accR, s, w, rest => by
      intro hds h
      simp only [parseObjectLoop] at h ⊢
      cases hps : parseString fuel (skipWhitespace s) with
      | error e => rw [hps] at h; simp at h
      | ok p =>
          obtain ⟨key, s1⟩ := p
          rw [hps] at h
          simp only [exceptBind_ok] at h ⊢
          cases hws1 : skipWhitespace s1 with
          | nil => rw [hws1] at h; simp at h
          | cons c s2 =>
              rw [hws1] at h
              dsimp only at h ⊢
              by_cases hc : c = ':'
              · rw [if_pos hc] at h ⊢
                cases hpv : parseValue (some r) rf fuel (skipWhitespace s2) with
                | error e => rw [hpv] at h; simp at h
                | ok q =>
                    obtain ⟨wv, s3⟩ := q
                    rw [hpv] at h
                    simp only [exceptBind_ok] at h
                    obtain ⟨v1, hpv0, hdr1⟩ :=
                      parseValue_reviver r rf fuel (skipWhitespace s2) wv s3 hpv
                    rw [hpv0]
                    simp only [exceptBind_ok]
                    have hins : deepReviveEnts r rf (objInsert acc key v1) =
                        some (objInsert accR key wv) :=
                      deepReviveEnts_objInsert r rf acc accR key v1 wv hds hdr1
                    cases hws3 : skipWhitespace s3 with
                    | nil => rw [hws3] at h; simp at h
                    | cons c2 s4 =>
                        rw [hws3] at h
                        dsimp only at h ⊢
                        by_cases hcb : c2 = '}'
                        · rw [if_pos hcb] at h ⊢
                          rw [applyReviver_some] at h
                          cases hao : applyReviverO r rf (.obj (objInsert accR key wv)) with
                          | none => rw [hao] at h; simp at h
                          | some w0 =>
                              rw [hao] at h
                              simp at h
                              obtain ⟨hw, hr⟩ := h
                              subst hw
                              subst hr
                              refine ⟨objInsert acc key v1,
                                by rw [applyReviver_none]; rfl, ?_⟩
                              simp [deepRevive, hins, hao]
                        · rw [if_neg hcb] at h ⊢
                          by_cases hcc : c2 = ','
                          · rw [if_pos hcc] at h ⊢
                            exact parseObjectLoop_reviver r rf fuel (objInsert acc key v1)
                              (objInsert accR key wv) s4 w rest hins h
                          · rw [if_neg hcc] at h
                            simp at h
              · rw [if_neg hc] at h
                simp at h

theorem parseArrayLoop_reviver (r : Reviver) (rf : Nat) :
    ∀ fuel acc accR s w rest,
      deepReviveItems r rf acc = some accR →
      parseArrayLoop (some r) rf fuel accR s = .ok (w, rest) →
      ∃ accF, parseArrayLoop none 0 fuel acc s = .ok (.arr accF, rest) ∧
        deepRevive r rf (.arr accF) = some w
  | 0, acc, accR, s, w, rest => by
      intro hds h
      simp [parseArrayLoop] at h
  | fuel + 1, acc, accR, s, w, rest => by
      intro hds h
      simp only [parseArrayLoop] at h ⊢
      cases hpv : parseValue (some r) rf fuel (skipWhitespace s) with
      | error e => rw [hpv] at h; simp at h
      | ok q =>
          obtain ⟨wv, s1⟩ := q
          rw [hpv] at h
          simp only [exceptBind_ok] at h
          obtain ⟨v1, hpv0, hdr1⟩ :=
            parseValue_reviver r rf fuel (skipWhitespace s) wv s1 hpv
          rw [hpv0]
          simp only [exceptBind_ok]
          have hins : deepReviveItems r rf (acc ++ [v1]) = some (accR ++ [wv]) :=
            deepReviveItems_snoc r rf acc accR v1 wv hds hdr1
          cases hws1 : skipWhitespace s1 with
          | nil => rw [hws1] at h; simp at h
          | cons c2 s2 =>
              rw [hws1] at h
              dsimp only at h ⊢
              by_cases hcb : c2 = ']'
              · rw [if_pos hcb] at h ⊢
                rw [applyReviver_some] at h
                cases hao : applyReviverO r rf (.arr (accR ++ [wv])) with
                | none => rw [hao] at h; simp at h
                | some w0 =>
                    rw [hao] at h
                    simp at h
                    obtain ⟨hw, hr⟩ := h
                    subst hw
                    subst hr
                    refine ⟨acc ++ [v1], by rw [applyReviver_none]; rfl, ?_⟩
                    simp [deepRevive, hins, hao]
              · rw [if_neg hcb] at h ⊢
                by_cases hcc : c2 = ','
                · rw [if_pos hcc] at h ⊢
                  exact parseArrayLoop_reviver r rf fuel (acc ++ [v1]) (accR ++ [wv])
                    s2 w rest hins h
                · rw [if_neg hcc] at h
                  simp at h
end

/-- C2 (amended): whenever parsing with a transform returns a value, the
result is exactly what plain parsing followed by the source's
post-container walk produces: revive every container at its completion
(children first, each container passed through `applyReviver`'s
synthetic-holder walk, which re-descends through the whole already
revived subtree), then apply the final `transform("", ·)` call. -/
theorem claim_C2 (r : Reviver) (rf : Nat) (json : String) (result : JsValue)
    (h : myParseWith r rf json = .ok result) :
    ∃ v w, myParse json = .ok v ∧ deepRevive r rf v = some w ∧
      result = r "" w := by
  unfold myParseWith myParseAux at h
  cases hpv : parseValue (some r) rf (json.length + 1) json.data with
  | error e => rw [hpv] at h; simp at h
  | ok p =>
      obtain ⟨w0, rest⟩ := p
      rw [hpv] at h
      simp only [exceptBind_ok] at h
      by_cases hws : skipWhitespace rest = []
      · rw [if_pos hws] at h
        simp at h
        obtain ⟨v, hpl, hdr⟩ :=
          parseValue_reviver r rf (json.length + 1) json.data w0 rest hpv
        refine ⟨v, w0, ?_, hdr, h.symm⟩
        unfold myParse myParseAux
        rw [hpl]
        simp [hws]
      · rw [if_neg hws] at h
        simp at h

theorem claim_C2_witness :
    ∃ v w, myParse "[1]" = .ok v ∧ deepRevive incNumbers 9 v = some w ∧
      (JsValue.arr [.num 2]) = incNumbers "" w :=
  claim_C2 incNumbers 9 "[1]" (.arr [.num 2]) (by decide)

/-- C2 counterexample: parsing `{"a":{"b":1}}` with a transform that
increments every number yields `{a:{b:3}}` — the innermost number is
passed to the transform once per enclosing completed container — while
the claimed exactly-once bottom-up walk yields `{a:{b:2}}`. -/
theorem claim_C2_cex :
    myParseWith incNumbers 8 "\x7b\"a\":\x7b\"b\":1\x7d\x7d" =
      .ok (.obj [("a", .obj [("b", .num 3)])]) ∧
    specParse incNumbers "\x7b\"a\":\x7b\"b\":1\x7d\x7d" =
      .ok (.obj [("a", .obj [("b", .num 2)])]) ∧
    (JsValue.obj [("a", .obj [("b", .num 3)])]) ≠
      .obj [("a", .obj [("b", .num 2)])] :=
  ⟨by decide, by decide, by decide⟩

/-! ## Whitespace runs and input extension -/

theorem skipWhitespace_cons_not (c : Char) (t : List Char) (h : isJsWs c = false) :
    skipWhitespace (c :: t) = c :: t := by
  simp [skipWhitespace, h]

theorem skipWhitespace_append_ws :
    ∀ w s, w.all isJsWs = true → skipWhitespace (w ++ s) = skipWhitespace s := by
  intro w
  induction w with
  | nil => intro s h; rfl
  | cons c cs ih =>
      intro s h
      simp only [List.all_cons, Bool.and_eq_true] at h
      simp [skipWhitespace, h.1, ih s h.2]

theorem skipWhitespace_shape :
    ∀ s, skipWhitespace s = [] ∨
      ∃ w c cs, s = w ++ c :: cs ∧ w.all isJsWs = true ∧ isJsWs c = false ∧
        skipWhitespace s = c :: cs := by
  intro s
  induction s with
  | nil => left; rfl
  | cons c cs ih =>
      by_cases hc : isJsWs c
      · cases ih with
        | inl h => left; simp [skipWhitespace, hc, h]
        | inr h =>
            obtain ⟨w, c2, cs2, hs, hw, hc2, hsk⟩ := h
            right
            refine ⟨c :: w, c2, cs2, by rw [hs]; rfl, by simp [hw, hc], hc2, ?_⟩
            simp [skipWhitespace, hc, hsk]
      · right
        exact ⟨[], c, cs, rfl, rfl, by simpa using hc, by simp [skipWhitespace, hc]⟩

theorem skipWhitespace_ext {s : List Char} {c : Char} {cs : List Char}
    (h : skipWhitespace s = c :: cs) (t : List Char) :
    skipWhitespace (s ++ t) = c :: (cs ++ t) := by
  rcases skipWhitespace_shape s with h0 | ⟨w, c2, cs2, hs, hw, hc2, hsk⟩
  · rw [h0] at h; exact absurd h (by simp)
  · rw [hsk] at h
    injection h with h1 h2
    subst h1
    subst h2
    rw [hs]
    rw [List.append_assoc]
    rw [skipWhitespace_append_ws w _ hw]
    simp [skipWhitespace_cons_not _ _ hc2]

theorem skipWhitespace_nil_all {s : List Char} (h : skipWhitespace s = []) :
    s.all isJsWs = true := by
  induction s with
  | nil => rfl
  | cons c cs ih =>
      by_cases hc : isJsWs c
      · simp [skipWhitespace, hc] at h
        simp [hc, ih h]
      · simp [skipWhitespace, hc] at h

theorem skipWhitespace_all_nil :
    ∀ {s : List Char}, s.all isJsWs = true → skipWhitespace s = [] := by
  intro s h
  induction s with
  | nil => rfl
  | cons c cs ih =>
      simp only [List.all_cons, Bool.and_eq_true] at h
      simp [skipWhitespace, h.1, ih h.2]

theorem char_eq_iff_toNat (a b : Char) : a = b ↔ a.toNat = b.toNat := by
  constructor
  · intro h; rw [h]
  · intro h
    unfold Char.toNat at h
    exact Char.ext (UInt32.toNat.inj h)

theorem char_le_iff_toNat (a b : Char) : a ≤ b ↔ a.toNat ≤ b.toNat := ge_iff_le

/-- The `\s` class, phrased on code points. -/
def jsWsNat (n : Nat) : Bool :=
  n = 32 || n = 9 || n = 10 || n = 11 || n = 12 || n = 13 ||
  n = 0xA0 || n = 0x1680 || (0x2000 ≤ n && n ≤ 0x200A) ||
  n = 0x2028 || n = 0x2029 || n = 0x202F || n = 0x205F ||
  n = 0x3000 || n = 0xFEFF

theorem isJsWs_iff_toNat (c : Char) : isJsWs c = true ↔ jsWsNat c.toNat = true := by
  unfold isJsWs jsWsNat
  simp only [Bool.or_eq_true, Bool.and_eq_true, decide_eq_true_eq,
    char_eq_iff_toNat,
    show (' ').toNat = 32 from rfl, show ('\t').toNat = 9 from rfl,
    show ('\n').toNat = 10 from rfl, show ('\x0B').toNat = 11 from rfl,
    show ('\x0C').toNat = 12 from rfl, show ('\r').toNat = 13 from rfl,
    show ('\u00A0').toNat = 0xA0 from rfl,
    show ('\u1680').toNat = 0x1680 from rfl,
    show ('\u2028').toNat = 0x2028 from rfl,
    show ('\u2029').toNat = 0x2029 from rfl,
    show ('\u202F').toNat = 0x202F from rfl,
    show ('\u205F').toNat = 0x205F from rfl,
    show ('\u3000').toNat = 0x3000 from rfl,
    show ('\uFEFF').toNat = 0xFEFF from rfl]

theorem isDigit_iff_toNat (c : Char) :
    isDigit c = true ↔ (48 ≤ c.toNat ∧ c.toNat ≤ 57) := by
  unfold isDigit
  have h0 : ('0').toNat = 48 := rfl
  have h9 : ('9').toNat = 57 := rfl
  simp only [Bool.and_eq_true, decide_eq_true_eq, char_le_iff_toNat, h0, h9]

/-- A whitespace character is not a digit, a dot, an exponent marker or
a sign. -/
theorem isJsWs_not_numberish {c : Char} (h : isJsWs c = true) :
    isDigit c = false ∧ c ≠ '.' ∧ c ≠ 'e' ∧ c ≠ 'E' ∧ c ≠ '+' ∧ c ≠ '-' := by
  rw [isJsWs_iff_toNat] at h
  unfold jsWsNat at h
  simp only [Bool.or_eq_true, Bool.and_eq_true, decide_eq_true_eq] at h
  refine ⟨?_, ?_, ?_, ?_, ?_, ?_⟩
  · rw [Bool.eq_false_iff]
    intro hd
    rw [isDigit_iff_toNat] at hd
    omega
  all_goals
    rw [Ne, char_eq_iff_toNat]
    intro he
    rw [he] at h
    revert h
    decide

theorem takeDigits_ws {t : List Char} (h : t.all isJsWs = true) :
    takeDigits t = ([], t) := by
  cases t with
  | nil => rfl
  | cons c cs =>
      simp only [List.all_cons, Bool.and_eq_true] at h
      have hd := (isJsWs_not_numberish h.1).1
      simp [takeDigits, hd]

theorem takeDigits_append_ws :
    ∀ s {t}, t.all isJsWs = true →
      takeDigits (s ++ t) = ((takeDigits s).1, (takeDigits s).2 ++ t) := by
  intro s
  induction s with
  | nil =>
      intro t h
      simp [takeDigits, takeDigits_ws h]
  | cons c cs ih =>
      intro t h
      by_cases hd : isDigit c
      · simp [takeDigits, hd, ih h]
      · simp [takeDigits, hd]

theorem numberFrac_append_ws (s : List Char) {t : List Char}
    (h : t.all isJsWs = true) :
    numberFrac (s ++ t) = ((numberFrac s).1, (numberFrac s).2 ++ t) := by
  cases s with
  | nil =>
      cases t with
      | nil => rfl
      | cons c cs =>
          simp only [List.all_cons, Bool.and_eq_true] at h
          have hdot := (isJsWs_not_numberish h.1).2.1
          simp [numberFrac, hdot]
  | cons c cs =>
      by_cases hdot : c = '.'
      · subst hdot
        simp only [numberFrac, List.cons_append, if_pos rfl]
        rw [takeDigits_append_ws cs h]
        by_cases hfs : (takeDigits cs).1 = []
        · simp [hfs]
        · simp [hfs]
      · simp [numberFrac, hdot]

theorem numberExp_append_ws (s : List Char) {t : List Char}
    (h : t.all isJsWs = true) :
    numberExp (s ++ t) =
      ((numberExp s).1, (numberExp s).2.1, (numberExp s).2.2 ++ t) := by
  cases s with
  | nil =>
      cases t with
      | nil => rfl
      | cons c cs =>
          simp only [List.all_cons, Bool.and_eq_true] at h
          obtain ⟨-, -, he, hE, -, -⟩ := isJsWs_not_numberish h.1
          simp [numberExp, he, hE]
  | cons e r1 =>
      by_cases hee : e = 'e' || e = 'E'
      · simp only [numberExp, List.cons_append, hee, if_true]
        cases r1 with
        | nil =>
            cases t with
            | nil => rfl
            | cons c cs =>
                simp only [List.all_cons, Bool.and_eq_true] at h
                obtain ⟨hdg, -, -, -, hplus, hminus⟩ := isJsWs_not_numberish h.1
                simp [hplus, hminus, takeDigits, hdg]
        | cons c1 r2 =>
            by_cases hp : c1 = '+'
            · subst hp
              simp only [List.cons_append, if_pos rfl]
              rw [takeDigits_append_ws r2 h]
              by_cases hxs : (takeDigits r2).1 = []
              · simp [hxs]
              · simp [hxs]
            · by_cases hm : c1 = '-'
              · subst hm
                simp only [List.cons_append,
                  if_neg (show ('-' : Char) ≠ '+' from by decide), if_pos rfl]
                rw [takeDigits_append_ws r2 h]
                by_cases hxs : (takeDigits r2).1 = []
                · simp [hxs]
                · simp [hxs]
              · simp only [List.cons_append, if_neg hp, if_neg hm]
                rw [show c1 :: (r2 ++ t) = (c1 :: r2) ++ t from rfl,
                  takeDigits_append_ws (c1 :: r2) h]
                by_cases hxs : (takeDigits (c1 :: r2)).1 = []
                · simp [hxs]
                · simp [hxs]
      · simp [numberExp, hee]

theorem numberSign_append_ws (s : List Char) {t : List Char}
    (h : t.all isJsWs = true) :
    numberSign (s ++ t) = ((numberSign s).1, (numberSign s).2 ++ t) := by
  cases s with
  | nil =>
      cases t with
      | nil => rfl
      | cons c cs =>
          simp only [List.all_cons, Bool.and_eq_true] at h
          obtain ⟨-, -, -, -, -, hminus⟩ := isJsWs_not_numberish h.1
          simp [numberSign, hminus]
  | cons c0 s0 =>
      by_cases hm : c0 = '-'
      · simp [numberSign, hm]
      · simp [numberSign, hm]

theorem parseNumber_append_ws {s t : List Char} (h : t.all isJsWs = true)
    {v : JsValue} {rest : List Char} (hok : parseNumber s = .ok (v, rest)) :
    parseNumber (s ++ t) = .ok (v, rest ++ t) := by
  unfold parseNumber at hok ⊢
  dsimp only at hok ⊢
  rw [numberSign_append_ws s h, takeDigits_append_ws _ h]
  by_cases hds : (takeDigits (numberSign s).2).1.isEmpty
  · rw [if_pos hds] at hok
    simp at hok
  · rw [if_neg hds] at hok ⊢
    rw [numberFrac_append_ws _ h, numberExp_append_ws _ h]
    simp only [Except.ok.injEq, Prod.mk.injEq] at hok ⊢
    exact ⟨hok.1, by rw [← hok.2]⟩

theorem parseLiteral_append (w : List Char) (lv : JsValue) (s t : List Char)
    (p : JsValue × List Char) (h : parseLiteral w lv s = .ok p) :
    parseLiteral w lv (s ++ t) = .ok (p.1, p.2 ++ t) := by
  unfold parseLiteral at h ⊢
  split at h
  case isTrue htake =>
      have hlen : w.length ≤ s.length := by
        have := congrArg List.length htake
        simp at this
        omega
      rw [if_pos (by rw [List.take_append_of_le_length hlen]; exact htake)]
      simp at h
      subst h
      simp [List.drop_append_of_le_length hlen]
  case isFalse => simp at h

theorem stringScan_append :
    ∀ fuel s t cs r, stringScan fuel s = .ok (cs, r) →
      stringScan fuel (s ++ t) = .ok (cs, r ++ t) := by
  intro fuel
  induction fuel with
  | zero => intro s t cs r h; simp [stringScan] at h
  | succ f ih =>
      intro s t cs r h
      cases s with
      | nil => rw [stringScan_nil] at h; simp at h
      | cons c s0 =>
          simp only [stringScan, List.cons_append, List.append_eq] at h ⊢
          by_cases hq : c = '"'
          · rw [if_pos hq] at h ⊢
            simp at h
            simp [h]
          · rw [if_neg hq] at h ⊢
            by_cases hb : c = '\\'
            · rw [if_pos hb] at h ⊢
              cases s0 with
              | nil =>
                  dsimp only at h
                  rw [stringScan_nil] at h
                  simp at h
              | cons e s1 =>
                  dsimp only at h ⊢
                  simp only [List.cons_append]
                  cases hsc : stringScan f s1 with
                  | error err => rw [hsc] at h; simp at h
                  | ok q =>
                      obtain ⟨cs2, r2⟩ := q
                      rw [hsc] at h
                      simp at h
                      rw [ih s1 t cs2 r2 hsc]
                      simp [← h.1, h.2]
            · rw [if_neg hb] at h ⊢
              cases hsc : stringScan f s0 with
              | error err => rw [hsc] at h; simp at h
              | ok q =>
                  obtain ⟨cs2, r2⟩ := q
                  rw [hsc] at h
                  simp at h
                  rw [ih s0 t cs2 r2 hsc]
                  simp [← h.1, h.2]

theorem parseString_append (fuel : Nat) (s t : List Char) (st : String)
    (r : List Char) (h : parseString fuel s = .ok (st, r)) :
    parseString fuel (s ++ t) = .ok (st, r ++ t) := by
  cases s with
  | nil =>
      unfold parseString at h
      dsimp only at h
      rw [stringScan_nil] at h
      simp at h
  | cons c s0 =>
      unfold parseString at h ⊢
      dsimp only [List.cons_append] at h ⊢
      cases hsc : stringScan fuel s0 with
      | error err => rw [hsc] at h; simp at h
      | ok q =>
          obtain ⟨cs2, r2⟩ := q
          rw [hsc] at h
          simp at h
          rw [stringScan_append fuel s0 t cs2 r2 hsc]
          simp [← h.1, h.2]

theorem parseString_nil (fuel : Nat) : parseString fuel [] = .error .hang := by
  unfold parseString
  rw [stringScan_nil]
  rfl

theorem parseObjectLoop_nil (ro : Option Reviver) (rfuel : Nat) :
    ∀ fuel acc, parseObjectLoop ro rfuel fuel acc [] = .error .hang := by
  intro fuel acc
  cases fuel with
  | zero => rfl
  | succ f =>
      simp only [parseObjectLoop]
      rw [show skipWhitespace [] = [] from rfl, parseString_nil]
      rfl

theorem parseValue_nil_not_ok (ro : Option Reviver) (rfuel : Nat) :
    ∀ fuel p, parseValue ro rfuel fuel [] ≠ .ok p := by
  intro fuel p
  cases fuel with
  | zero => simp [parseValue]
  | succ f => simp [parseValue, show skipWhitespace ([] : List Char) = [] from rfl]

theorem parseArrayLoop_nil_not_ok (ro : Option Reviver) (rfuel : Nat) :
    ∀ fuel acc p, parseArrayLoop ro rfuel fuel acc [] ≠ .ok p := by
  intro fuel acc p
  cases fuel with
  | zero => simp [parseArrayLoop]
  | succ f =>
      simp only [parseArrayLoop]
      rw [show skipWhitespace [] = [] from rfl]
      cases hpv : parseValue ro rfuel f [] with
      | error e => simp
      | ok q => exact absurd hpv (parseValue_nil_not_ok ro rfuel f q)

/- Appending whitespace after input on which a parse succeeded leaves
the result unchanged and lands the cursor after the original remaining
input. -/
mutual
theorem parseValue_append_ws :
    ∀ fuel s t v rest, t.all isJsWs = true →
      parseValue none 0 fuel s = .ok (v, rest) →
      parseValue none 0 fuel (s ++ t) = .ok (v, rest ++ t)
  | 0, s, t, v, rest => by
      intro hws h
      simp [parseValue] at h
  | fuel + 1, s, t, v, rest => by
      intro hwt h
      simp only [parseValue] at h ⊢
      cases hws : skipWhitespace s with
      | nil => rw [hws] at h; simp at h
      | cons c cs =>
          rw [hws] at h
          rw [skipWhitespace_ext hws t]
          dsimp only at h ⊢
          by_cases hq : c = '"'
          · rw [if_pos hq] at h ⊢
            cases hps : parseString fuel (c :: cs) with
            | error e => rw [hps] at h; simp at h
            | ok p =>
                obtain ⟨st, r1⟩ := p
                rw [hps] at h
                simp at h
                rw [show c :: (cs ++ t) = (c :: cs) ++ t from rfl,
                  parseString_append fuel (c :: cs) t st r1 hps]
                simp [← h.1, h.2]
          · rw [if_neg hq] at h ⊢
            by_cases hob : c = '{'
            · rw [if_pos hob] at h ⊢
              cases hws2 : skipWhitespace cs with
              | nil =>
                  rw [hws2] at h
                  dsimp only at h
                  rw [parseObjectLoop_nil] at h
                  simp at h
              | cons c2 r2 =>
                  rw [hws2] at h
                  rw [skipWhitespace_ext hws2 t]
                  dsimp only at h ⊢
                  by_cases hcb : c2 = '}'
                  · rw [if_pos hcb] at h ⊢
                    simp only [applyReviver] at h ⊢
                    simp at h
                    simp [← h.1, h.2]
                  · rw [if_neg hcb] at h ⊢
                    exact parseObjectLoop_append_ws fuel [] (c2 :: r2) t v rest hwt h
            · rw [if_neg hob] at h ⊢
              by_cases hab : c = '['
              · rw [if_pos hab] at h ⊢
                cases hws2 : skipWhitespace cs with
                | nil =>
                    rw [hws2] at h
                    dsimp only at h
                    exact absurd h (parseArrayLoop_nil_not_ok none 0 fuel [] (v, rest))
                | cons c2 r2 =>
                    rw [hws2] at h
                    rw [skipWhitespace_ext hws2 t]
                    dsimp only at h ⊢
                    by_cases hcb : c2 = ']'
                    · rw [if_pos hcb] at h ⊢
                      simp only [applyReviver] at h ⊢
                      simp at h
                      simp [← h.1, h.2]
                    · rw [if_neg hcb] at h ⊢
                      exact parseArrayLoop_append_ws fuel [] (c2 :: r2) t v rest hwt h
              · rw [if_neg hab] at h ⊢
                by_cases htl : c = 't'
                · rw [if_pos htl] at h ⊢
                  have hp := parseLiteral_append "true".data (.boolean true) (c :: cs) t (v, rest) h
                  rw [show c :: (cs ++ t) = (c :: cs) ++ t from rfl]
                  exact hp
                · rw [if_neg htl] at h ⊢
                  by_cases hfl : c = 'f'
                  · rw [if_pos hfl] at h ⊢
                    have hp := parseLiteral_append "false".data (.boolean false) (c :: cs) t (v, rest) h
                    rw [show c :: (cs ++ t) = (c :: cs) ++ t from rfl]
                    exact hp
                  · rw [if_neg hfl] at h ⊢
                    by_cases hnl : c = 'n'
                    · rw [if_pos hnl] at h ⊢
                      have hp := parseLiteral_append "null".data .null (c :: cs) t (v, rest) h
                      rw [show c :: (cs ++ t) = (c :: cs) ++ t from rfl]
                      exact hp
                    · rw [if_neg hnl] at h ⊢
                      by_cases hnum : c = '-' || isDigit c
                      · rw [if_pos hnum] at h ⊢
                        rw [show c :: (cs ++ t) = (c :: cs) ++ t from rfl]
                        exact parseNumber_append_ws hwt h
                      · rw [if_neg hnum] at h
                        simp at h

theorem parseObjectLoop_append_ws :
    ∀ fuel acc s t v rest, t.all isJsWs = true →
      parseObjectLoop none 0 fuel acc s = .ok (v, rest) →
      parseObjectLoop none 0 fuel acc (s ++ t) = .ok (v, rest ++ t)
  | 0, acc, s, t, v, rest => by
      intro hwt h
      simp [parseObjectLoop] at h
  | fuel + 1, acc, s, t, v, rest => by
      intro hwt h
      simp only [parseObjectLoop] at h ⊢
      cases hws : skipWhitespace s with
      | nil =>
          rw [hws, parseString_nil] at h
          simp at h
      | cons c0 cs0 =>
          rw [hws] at h
          rw [skipWhitespace_ext hws t]
          cases hps : parseString fuel (c0 :: cs0) with
          | error e => rw [hps] at h; simp at h
          | ok p =>
              obtain ⟨key, s1⟩ := p
              rw [hps] at h
              rw [show c0 :: (cs0 ++ t) = (c0 :: cs0) ++ t from rfl,
                parseString_append fuel (c0 :: cs0) t key s1 hps]
              simp only [exceptBind_ok] at h ⊢
              cases hws1 : skipWhitespace s1 with
              | nil => rw [hws1] at h; simp at h
              | cons c s2 =>
                  rw [hws1] at h
                  rw [skipWhitespace_ext hws1 t]
                  dsimp only at h ⊢
                  by_cases hc : c = ':'
                  · rw [if_pos hc] at h ⊢
                    cases hpv : parseValue none 0 fuel (skipWhitespace s2) with
                    | error e => rw [hpv] at h; simp at h
                    | ok q =>
                        obtain ⟨wv, s3⟩ := q
                        rw [hpv] at h
                        simp only [exceptBind_ok] at h
                        have hext := parseValue_append_ws fuel (skipWhitespace s2) t wv s3 hwt hpv
                        have hsk2 : skipWhitespace (s2 ++ t) = skipWhitespace s2 ++ t := by
                          cases hsh : skipWhitespace s2 with
                          | nil =>
                              rw [hsh] at hpv
                              exact absurd hpv (parseValue_nil_not_ok none 0 fuel (wv, s3))
                          | cons cx csx => exact skipWhitespace_ext hsh t
                        rw [hsk2, hext]
                        simp only [exceptBind_ok]
                        cases hws3 : skipWhitespace s3 with
                        | nil => rw [hws3] at h; simp at h
                        | cons c2 s4 =>
                            rw [hws3] at h
                            rw [skipWhitespace_ext hws3 t]
                            dsimp only at h ⊢
                            by_cases hcb : c2 = '}'
                            · rw [if_pos hcb] at h ⊢
                              simp only [applyReviver] at h ⊢
                              simp at h
                              simp [← h.1, h.2]
                            · rw [if_neg hcb] at h ⊢
                              by_cases hcc : c2 = ','
                              · rw [if_pos hcc] at h ⊢
                                exact parseObjectLoop_append_ws fuel
                                  (objInsert acc key wv) s4 t v rest hwt h
                              · rw [if_neg hcc] at h
                                simp at h
                  · rw [if_neg hc] at h
                    simp at h

theorem parseArrayLoop_append_ws :
    ∀ fuel acc s t v rest, t.all isJsWs = true →
      parseArrayLoop none 0 fuel acc s = .ok (v, rest) →
      parseArrayLoop none 0 fuel acc (s ++ t) = .ok (v, rest ++ t)
  | 0, acc, s, t, v, rest => by
      intro hwt h
      simp [parseArrayLoop] at h
  | fuel + 1, acc, s, t, v, rest => by
      intro hwt h
      simp only [parseArrayLoop] at h ⊢
      cases hpv : parseValue none 0 fuel (skipWhitespace s) with
      | error e => rw [hpv] at h; simp at h
      | ok q =>
          obtain ⟨wv, s1⟩ := q
          rw [hpv] at h
          simp only [exceptBind_ok] at h
          have hext := parseValue_append_ws fuel (skipWhitespace s) t wv s1 hwt hpv
          have hsk2 : skipWhitespace (s ++ t) = skipWhitespace s ++ t := by
            cases hsh : skipWhitespace s with
            | nil =>
                rw [hsh] at hpv
                exact absurd hpv (parseValue_nil_not_ok none 0 fuel (wv, s1))
            | cons cx csx => exact skipWhitespace_ext hsh t
          rw [hsk2, hext]
          simp only [exceptBind_ok]
          cases hws1 : skipWhitespace s1 with
          | nil => rw [hws1] at h; simp at h
          | cons c2 s2 =>
              rw [hws1] at h
              rw [skipWhitespace_ext hws1 t]
              dsimp only at h ⊢
              by_cases hcb : c2 = ']'
              · rw [if_pos hcb] at h ⊢
                simp only [applyReviver] at h ⊢
                simp at h
                simp [← h.1, h.2]
              · rw [if_neg hcb] at h ⊢
                by_cases hcc : c2 = ','
                · rw [if_pos hcc] at h ⊢
                  exact parseArrayLoop_append_ws fuel (acc ++ [wv]) s2 t v rest hwt h
                · rw [if_neg hcc] at h
                  simp at h
end

theorem stringScan_mono :
    ∀ fuel s p, stringScan fuel s = .ok p → stringScan (fuel + 1) s = .ok p := by
  intro fuel
  induction fuel with
  | zero => intro s p h; simp [stringScan] at h
  | succ f ih =>
      intro s p h
      cases s with
      | nil => rw [stringScan_nil] at h; simp at h
      | cons c s0 =>
          simp only [stringScan] at h ⊢
          by_cases hq : c = '"'
          · rwa [if_pos hq] at h ⊢
          · rw [if_neg hq] at h ⊢
            by_cases hb : c = '\\'
            · rw [if_pos hb] at h ⊢
              cases s0 with
              | nil =>
                  dsimp only at h
                  rw [stringScan_nil] at h
                  simp at h
              | cons e s1 =>
                  dsimp only at h ⊢
                  cases hsc : stringScan f s1 with
                  | error err => rw [hsc] at h; simp at h
                  | ok q =>
                      rw [hsc] at h
                      rw [ih s1 q hsc]
                      exact h
            · rw [if_neg hb] at h ⊢
              cases hsc : stringScan f s0 with
              | error err => rw [hsc] at h; simp at h
              | ok q =>
                  rw [hsc] at h
                  rw [ih s0 q hsc]
                  exact h

theorem parseString_mono (fuel : Nat) (s : List Char) (p : String × List Char)
    (h : parseString fuel s = .ok p) : parseString (fuel + 1) s = .ok p := by
  cases s with
  | nil => rw [parseString_nil] at h; simp at h
  | cons c s0 =>
      unfold parseString at h ⊢
      dsimp only at h ⊢
      cases hsc : stringScan fuel s0 with
      | error err => rw [hsc] at h; simp at h
      | ok q =>
          rw [hsc] at h
          rw [stringScan_mono fuel s0 q hsc]
          exact h

mutual
theorem parseValue_mono (ro : Option Reviver) (rfuel : Nat) :
    ∀ fuel s p, parseValue ro rfuel fuel s = .ok p →
      parseValue ro rfuel (fuel + 1) s = .ok p
  | 0, s, p => by
      intro h
      simp [parseValue] at h
  | fuel + 1, s, p => by
      intro h
      simp only [parseValue] at h ⊢
      cases hws : skipWhitespace s with
      | nil => rw [hws] at h; simp at h
      | cons c cs =>
          rw [hws] at h
          dsimp only at h ⊢
          by_cases hq : c = '"'
          · rw [if_pos hq] at h ⊢
            cases hps : parseString fuel (c :: cs) with
            | error e => rw [hps] at h; simp at h
            | ok p2 =>
                rw [hps] at h
                rw [parseString_mono fuel (c :: cs) p2 hps]
                exact h
          · rw [if_neg hq] at h ⊢
            by_cases hob : c = '{'
            · rw [if_pos hob] at h ⊢
              cases hws2 : skipWhitespace cs with
              | nil =>
                  rw [hws2] at h
                  dsimp only at h ⊢
                  exact parseObjectLoop_mono ro rfuel fuel [] [] p h
              | cons c2 r2 =>
                  rw [hws2] at h
                  dsimp only at h ⊢
                  by_cases hcb : c2 = '}'
                  · rwa [if_pos hcb] at h ⊢
                  · rw [if_neg hcb] at h ⊢
                    exact parseObjectLoop_mono ro rfuel fuel [] (c2 :: r2) p h
            · rw [if_neg hob] at h ⊢
              by_cases hab : c = '['
              · rw [if_pos hab] at h ⊢
                cases hws2 : skipWhitespace cs with
                | nil =>
                    rw [hws2] at h
                    dsimp only at h ⊢
                    exact parseArrayLoop_mono ro rfuel fuel [] [] p h
                | cons c2 r2 =>
                    rw [hws2] at h
                    dsimp only at h ⊢
                    by_cases hcb : c2 = ']'
                    · rwa [if_pos hcb] at h ⊢
                    · rw [if_neg hcb] at h ⊢
                      exact parseArrayLoop_mono ro rfuel fuel [] (c2 :: r2) p h
              · rw [if_neg hab] at h ⊢
                by_cases htl : c = 't'
                · rwa [if_pos htl] at h ⊢
                · rw [if_neg htl] at h ⊢
                  by_cases hfl : c = 'f'
                  · rwa [if_pos hfl] at h ⊢
                  · rw [if_neg hfl] at h ⊢
                    by_cases hnl : c = 'n'
                    · rwa [if_pos hnl] at h ⊢
                    · rw [if_neg hnl] at h ⊢
                      by_cases hnum : c = '-' || isDigit c
                      · rwa [if_pos hnum] at h ⊢
                      · rw [if_neg hnum] at h
                        simp at h

theorem parseObjectLoop_mono (ro : Option Reviver) (rfuel : Nat) :
    ∀ fuel acc s p, parseObjectLoop ro rfuel fuel acc s = .ok p →
      parseObjectLoop ro rfuel (fuel + 1) acc s = .ok p
  | 0, acc, s, p => by
      intro h
      simp [parseObjectLoop] at h
  | fuel + 1, acc, s, p => by
      intro h
      simp only [parseObjectLoop] at h ⊢
      cases hps : parseString fuel (skipWhitespace s) with
      | error e => rw [hps] at h; simp at h
      | ok p2 =>
          obtain ⟨key, s1⟩ := p2
          rw [hps] at h
          rw [parseString_mono fuel (skipWhitespace s) (key, s1) hps]
          simp only [exceptBind_ok] at h ⊢
          cases hws1 : skipWhitespace s1 with
          | nil => rw [hws1] at h; simp at h
          | cons c s2 =>
              rw [hws1] at h
              dsimp only at h ⊢
              by_cases hc : c = ':'
              · rw [if_pos hc] at h ⊢
                cases hpv : parseValue ro rfuel fuel (skipWhitespace s2) with
                | error e => rw [hpv] at h; simp at h
                | ok q =>
                    obtain ⟨wv, s3⟩ := q
                    rw [hpv] at h
                    rw [parseValue_mono ro rfuel fuel (skipWhitespace s2) (wv, s3) hpv]
                    simp only [exceptBind_ok] at h ⊢
                    cases hws3 : skipWhitespace s3 with
                    | nil => rw [hws3] at h; simp at h
                    | cons c2 s4 =>
                        rw [hws3] at h
                        dsimp only at h ⊢
                        by_cases hcb : c2 = '}'
                        · rwa [if_pos hcb] at h ⊢
                        · rw [if_neg hcb] at h ⊢
                          by_cases hcc : c2 = ','
                          · rw [if_pos hcc] at h ⊢
                            exact parseObjectLoop_mono ro rfuel fuel
                              (objInsert acc key wv) s4 p h
                          · rw [if_neg hcc] at h
                            simp at h
              · rw [if_neg hc] at h
                simp at h

theorem parseArrayLoop_mono (ro : Option Reviver) (rfuel : Nat) :
    ∀ fuel acc s p, parseArrayLoop ro rfuel fuel acc s = .ok p →
      parseArrayLoop ro rfuel (fuel + 1) acc s = .ok p
  | 0, acc, s, p => by
      intro h
      simp [parseArrayLoop] at h
  | fuel + 1, acc, s, p => by
      intro h
      simp only [parseArrayLoop] at h ⊢
      cases hpv : parseValue ro rfuel fuel (skipWhitespace s) with
      | error e => rw [hpv] at h; simp at h
      | ok q =>
          obtain ⟨wv, s1⟩ := q
          rw [hpv] at h
          rw [parseValue_mono ro rfuel fuel (skipWhitespace s) (wv, s1) hpv]
          simp only [exceptBind_ok] at h ⊢
          cases hws1 : skipWhitespace s1 with
          | nil => rw [hws1] at h; simp at h
          | cons c2 s2 =>
              rw [hws1] at h
              dsimp only at h ⊢
              by_cases hcb : c2 = ']'
              · rwa [if_pos hcb] at h ⊢
              · rw [if_neg hcb] at h ⊢
                by_cases hcc : c2 = ','
                · rw [if_pos hcc] at h ⊢
                  exact parseArrayLoop_mono ro rfuel fuel (acc ++ [wv]) s2 p h
                · rw [if_neg hcc] at h
                  simp at h
end

theorem parseValue_mono_le (ro : Option Reviver) (rfuel : Nat)
    {f g : Nat} (hle : f ≤ g) {s : List Char} {p : JsValue × List Char}
    (h : parseValue ro rfuel f s = .ok p) :
    parseValue ro rfuel g s = .ok p := by
  induction g with
  | zero =>
      have : f = 0 := Nat.le_zero.mp hle
      subst this
      exact h
  | succ n ih =>
      rcases Nat.lt_or_ge f (n + 1) with hlt | hge
      · exact parseValue_mono ro rfuel n s p (ih (Nat.lt_succ_iff.mp hlt))
      · have : f = n + 1 := Nat.le_antisymm hle hge
        subst this
        exact h

theorem parseValue_ws_head (ro : Option Reviver) (rfuel fuel : Nat)
    (w x : List Char) (h : w.all isJsWs = true) :
    parseValue ro rfuel fuel (w ++ x) = parseValue ro rfuel fuel x := by
  cases fuel with
  | zero => rfl
  | succ f => simp only [parseValue, skipWhitespace_append_ws w x h]

/-- C7 (amended): the parser's skippable whitespace is the full
JavaScript `\s` class (`isJsWs`), not just space, tab, newline and
carriage-return; padding a parse with runs of that class never changes
the result, and any non-whitespace character remaining after the one
top-level value raises the "unexpected extra characters"
SyntaxError. -/
theorem claim_C7 :
    (∀ (w1 w2 : List Char) (json : String) (v : JsValue),
        w1.all isJsWs = true → w2.all isJsWs = true →
        myParse json = .ok v →
        myParse (String.mk (w1 ++ json.data ++ w2)) = .ok v) ∧
    (∀ (json : String) (v : JsValue) (rest : List Char),
        parseValue none 0 (json.length + 1) json.data = .ok (v, rest) →
        skipWhitespace rest ≠ [] →
        myParse json = .error (.syntaxError "Unexpected extra characters")) := by
  constructor
  · intro w1 w2 json v hw1 hw2 h
    unfold myParse myParseAux at h ⊢
    cases hpv : parseValue none 0 (json.length + 1) json.data with
    | error e => rw [hpv] at h; simp at h
    | ok p =>
        obtain ⟨v0, rest⟩ := p
        rw [hpv] at h
        simp only [exceptBind_ok] at h
        by_cases hsk : skipWhitespace rest = []
        · rw [if_pos hsk] at h
          simp at h
          subst h
          have hlen : (String.mk (w1 ++ json.data ++ w2)).length =
              w1.length + json.data.length + w2.length := by
            show (w1 ++ json.data ++ w2).length = _
            simp [List.length_append]
            omega
          have hle : json.length + 1 ≤ (String.mk (w1 ++ json.data ++ w2)).length + 1 := by
            rw [hlen]
            have : json.length = json.data.length := rfl
            omega
          have h1 : parseValue none 0 ((String.mk (w1 ++ json.data ++ w2)).length + 1)
              json.data = .ok (v0, rest) :=
            parseValue_mono_le none 0 hle hpv
          have h2 := parseValue_append_ws _ json.data w2 v0 rest hw2 h1
          have h3 : parseValue none 0 ((String.mk (w1 ++ json.data ++ w2)).length + 1)
              (w1 ++ (json.data ++ w2)) = .ok (v0, rest ++ w2) := by
            rw [parseValue_ws_head none 0 _ w1 (json.data ++ w2) hw1]
            exact h2
          rw [show (String.mk (w1 ++ json.data ++ w2)).data =
              w1 ++ (json.data ++ w2) from by simp]
          rw [h3]
          simp only [exceptBind_ok]
          have hww : skipWhitespace (rest ++ w2) = [] := by
            rw [skipWhitespace_append_ws rest w2 (skipWhitespace_nil_all hsk)]
            exact skipWhitespace_all_nil hw2
          rw [if_pos hww]
        · rw [if_neg hsk] at h
          simp at h
  · intro json v rest hpv hne
    unfold myParse myParseAux
    rw [hpv]
    simp only [exceptBind_ok]
    rw [if_neg hne]

theorem claim_C7_witness :
    (myParse (String.mk ([' '] ++ "1".data ++ ['\t', '\x0C'])) = .ok (.num 1)) ∧
    (myParse "1 x" = .error (.syntaxError "Unexpected extra characters")) :=
  ⟨claim_C7.1 [' '] ['\t', '\x0C'] "1" (.num 1) (by decide) (by decide) (by decide),
   claim_C7.2 "1 x" (.num 1) (' ' :: ['x']) (by decide) (by decide)⟩

/-- C7 counterexample: form feed is not among the four characters the
claim allows as whitespace, yet the parser skips it: parsing a form
feed followed by `1` succeeds instead of raising the claimed
SyntaxError. -/
theorem claim_C7_cex : myParse "\x0C1" = .ok (.num 1) := by decide

/-! ## Round-trip: serializer output re-parses to the same value -/

/-- Keys that survive the serializer's unescaped interpolation: no
double quote and no backslash. -/
def goodKey (cs : List Char) : Bool := cs.all (fun c => !(c = '"' || c = '\\'))

def distinctKeys : List (String × JsValue) → Bool
  | [] => true
  | (k, _) :: rest => !(rest.any (fun p => p.1 == k)) && distinctKeys rest

mutual
/-- Values built solely from Null, Boolean, Number, String, Array and
Object (no `undefined`), whose object key sets are duplicate-free and
whose keys contain neither a double quote nor a backslash. -/
def good : JsValue → Bool
  | .null => true
  | .boolean _ => true
  | .num _ => true
  | .str _ => true
  | .arr es => goodL es
  | .obj kvs => distinctKeys kvs && goodE kvs
  | .undef => false
def goodL : List JsValue → Bool
  | [] => true
  | v :: rest => good v && goodL rest
def goodE : List (String × JsValue) → Bool
  | [] => true
  | (k, v) :: rest => goodKey k.data && good v && goodE rest
end

mutual
/-- The inline (no indent) serialization of a value, as a pure
function; `stringifyValue_rend` below shows the serializer computes
exactly this on `good` values. -/
def rend : JsValue → List Char
  | .null => "null".data
  | .boolean b => if b then "true".data else "false".data
  | .num n => jsNumberString n
  | .str s => '"' :: escapeString s.data ++ ['"']
  | .arr es => '[' :: rendL es ++ [']']
  | .obj kvs => '{' :: rendE kvs ++ ['}']
  | .undef => []
def rendL : List JsValue → List Char
  | [] => []
  | [v] => rend v
  | v :: v2 :: rest => rend v ++ ',' :: rendL (v2 :: rest)
def rendE : List (String × JsValue) → List Char
  | [] => []
  | [(k, v)] => '"' :: k.data ++ '"' :: ':' :: rend v
  | (k, v) :: p :: rest =>
      '"' :: k.data ++ '"' :: ':' :: rend v ++ ',' :: rendE (p :: rest)
end

/-- What may legally follow a rendered value during re-parsing: end of
input or a separator/closer. -/
def delimOk : List Char → Prop
  | [] => True
  | c :: _ => c = ',' ∨ c = '}' ∨ c = ']'

theorem digitsToNat_append (xs : List Char) (c : Char) :
    digitsToNat (xs ++ [c]) = 10 * digitsToNat xs + (c.toNat - 48) := by
  unfold digitsToNat
  rw [List.foldl_append]
  rfl

theorem natCharsAux_correct :
    ∀ fuel m, m < fuel →
      digitsToNat (natCharsAux fuel m) = m ∧
      (∀ c ∈ natCharsAux fuel m, isDigit c = true) ∧
      natCharsAux fuel m ≠ [] := by
  intro fuel
  induction fuel with
  | zero => intro m h; omega
  | succ f ih =>
      intro m hm
      by_cases h10 : m < 10
      · rw [show natCharsAux (f + 1) m = [digitChar m] from by
          simp [natCharsAux, h10]]
        interval_cases m <;> exact ⟨by decide, by decide, by decide⟩
      · rw [show natCharsAux (f + 1) m = natCharsAux f (m / 10) ++ [digitChar (m % 10)]
          from by simp [natCharsAux, h10]]
        have hlt : m / 10 < f := by omega
        obtain ⟨hval, hdig, hne⟩ := ih (m / 10) hlt
        refine ⟨?_, ?_, by simp⟩
        · rw [digitsToNat_append, hval]
          have hd : (digitChar (m % 10)).toNat = 48 + m % 10 := by
            have : m % 10 < 10 := Nat.mod_lt _ (by omega)
            interval_cases h : m % 10 <;> simp [digitChar] <;> rfl
          rw [hd]
          omega
        · intro c hc
          rcases List.mem_append.mp hc with hc | hc
          · exact hdig c hc
          · simp at hc
            subst hc
            have : m % 10 < 10 := Nat.mod_lt _ (by omega)
            interval_cases h : m % 10 <;> decide

theorem natChars_correct (m : Nat) :
    digitsToNat (natChars m) = m ∧ (∀ c ∈ natChars m, isDigit c = true) ∧
      natChars m ≠ [] :=
  natCharsAux_correct (m + 1) m (by omega)

theorem isDigit_not_ws {c : Char} (h : isDigit c = true) : isJsWs c = false := by
  rw [Bool.eq_false_iff]
  intro hws
  exact absurd h (by simp [(isJsWs_not_numberish hws).1])

theorem isDigit_ne {c : Char} (h : isDigit c = true) :
    c ≠ '"' ∧ c ≠ '{' ∧ c ≠ '[' ∧ c ≠ 't' ∧ c ≠ 'f' ∧ c ≠ 'n' ∧ c ≠ '-' ∧
      c ≠ ',' ∧ c ≠ '}' ∧ c ≠ ']' ∧ c ≠ '.' ∧ c ≠ 'e' ∧ c ≠ 'E' := by
  rw [isDigit_iff_toNat] at h
  refine ⟨?_, ?_, ?_, ?_, ?_, ?_, ?_, ?_, ?_, ?_, ?_, ?_, ?_⟩ <;>
    · rw [Ne, char_eq_iff_toNat]
      intro he
      rw [he] at h
      revert h
      decide

theorem takeDigits_digits_delim :
    ∀ ds rest, (∀ c ∈ ds, isDigit c = true) →
      (rest = [] ∨ ∃ c t, rest = c :: t ∧ isDigit c = false) →
      takeDigits (ds ++ rest) = (ds, rest) := by
  intro ds
  induction ds with
  | nil =>
      intro rest h hr
      rcases hr with hr | ⟨c, t, hr, hc⟩
      · subst hr; rfl
      · subst hr; simp [takeDigits, hc]
  | cons d ds' ih =>
      intro rest h hr
      have hd : isDigit d = true := h d (by simp)
      have hih := ih rest (fun c hc => h c (by simp [hc])) hr
      simp only [List.cons_append, takeDigits, hd, if_true, List.append_eq, hih]

theorem delim_not_digit {rest : List Char} (h : delimOk rest) :
    rest = [] ∨ ∃ c t, rest = c :: t ∧ isDigit c = false := by
  cases rest with
  | nil => left; rfl
  | cons c t =>
      right
      refine ⟨c, t, rfl, ?_⟩
      rcases h with h | h | h <;> (subst h; decide)

theorem delim_head_facts {c : Char} {t : List Char} (h : delimOk (c :: t)) :
    isJsWs c = false ∧ isDigit c = false ∧ c ≠ '.' ∧ c ≠ 'e' ∧ c ≠ 'E' := by
  rcases h with h | h | h <;> (subst h; exact ⟨by decide, by decide, by decide, by decide, by decide⟩)

theorem numberFrac_delim {rest : List Char} (h : delimOk rest) :
    numberFrac rest = ([], rest) := by
  cases rest with
  | nil => rfl
  | cons c t =>
      obtain ⟨-, -, hdot, -, -⟩ := delim_head_facts h
      simp [numberFrac, hdot]

theorem numberExp_delim {rest : List Char} (h : delimOk rest) :
    numberExp rest = (false, [], rest) := by
  cases rest with
  | nil => rfl
  | cons c t =>
      obtain ⟨-, -, -, he, hE⟩ := delim_head_facts h
      simp [numberExp, he, hE]

theorem parseNumber_rend (n : Int) (rest : List Char) (h : delimOk rest) :
    parseNumber (jsNumberString n ++ rest) = .ok (.num n, rest) := by
  obtain ⟨hval, hdig, hne⟩ := natChars_correct n.natAbs
  have htd : takeDigits (natChars n.natAbs ++ rest) = (natChars n.natAbs, rest) :=
    takeDigits_digits_delim _ rest hdig (delim_not_digit h)
  unfold parseNumber
  dsimp only
  by_cases hneg : n < 0
  · rw [show jsNumberString n = '-' :: natChars n.natAbs from by
      simp [jsNumberString, hneg]]
    rw [show numberSign (('-' :: natChars n.natAbs) ++ rest) =
        (true, natChars n.natAbs ++ rest) from by simp [numberSign]]
    rw [htd]
    dsimp only
    rw [if_neg (by simpa using hne)]
    rw [numberFrac_delim h, numberExp_delim h]
    dsimp only
    have hv : numValue true (natChars n.natAbs) [] false [] = n := by
      unfold numValue
      simp only [List.append_nil, hval]
      simp [digitsToNat]
      rw [abs_of_neg hneg]
      ring
    rw [hv]
  · rw [show jsNumberString n = natChars n.natAbs from by
      simp [jsNumberString, hneg]]
    have hsign : numberSign (natChars n.natAbs ++ rest) =
        (false, natChars n.natAbs ++ rest) := by
      cases hcc : natChars n.natAbs with
      | nil => exact absurd hcc hne
      | cons c0 cs0 =>
          have hd0 : isDigit c0 = true := hdig c0 (by rw [hcc]; simp)
          have := (isDigit_ne hd0).2.2.2.2.2.2.1
          simp [numberSign, this]
    rw [hsign, htd]
    dsimp only
    rw [if_neg (by simpa using hne)]
    rw [numberFrac_delim h, numberExp_delim h]
    dsimp only
    have hv : numValue false (natChars n.natAbs) [] false [] = n := by
      unfold numValue
      simp only [List.append_nil, hval]
      simp [digitsToNat]
      first
        | omega
        | exact abs_of_nonneg (by omega)
        | (rw [abs_of_nonneg (show (0:Int) ≤ n by omega)])
    rw [hv]

theorem parseLiteral_self (w : List Char) (lv : JsValue) (rest : List Char) :
    parseLiteral w lv (w ++ rest) = .ok (lv, rest) := by
  unfold parseLiteral
  rw [List.take_left, List.drop_left]
  simp

theorem escapeChar_single {c : Char} (hq : c ≠ '"') (hb : c ≠ '\\')
    (h8 : c ≠ '\x08') (hf : c ≠ '\x0C') (hn : c ≠ '\n') (hr : c ≠ '\r')
    (ht : c ≠ '\t') : escapeChar c = [c] := by
  simp [escapeChar, hq, hb, h8, hf, hn, hr, ht]

theorem stringScan_quote (f : Nat) (s : List Char) :
    stringScan (f + 1) ('"' :: s) = .ok ([], s) := by
  simp [stringScan]

theorem stringScan_esc_step (f : Nat) (e : Char) (s : List Char) :
    stringScan (f + 1) ('\\' :: e :: s) =
      (stringScan f s).map (fun p => (unescapeChar e :: p.1, p.2)) := by
  simp [stringScan]

theorem stringScan_raw_step (f : Nat) (c : Char) (s : List Char)
    (hq : c ≠ '"') (hb : c ≠ '\\') :
    stringScan (f + 1) (c :: s) =
      (stringScan f s).map (fun p => (c :: p.1, p.2)) := by
  simp [stringScan, hq, hb]

/-- Scanning the escaped form of a string with the closing quote and
`rest` behind it recovers the original characters and stops exactly at
`rest`. -/
theorem stringScan_escape :
    ∀ cs fuel rest, cs.length + 1 ≤ fuel →
      stringScan fuel (escapeString cs ++ '"' :: rest) = .ok (cs, rest) := by
  intro cs
  induction cs with
  | nil =>
      intro fuel rest hf
      match fuel, hf with
      | f + 1, _ =>
          rw [show escapeString [] ++ '"' :: rest = '"' :: rest from rfl]
          exact stringScan_quote f rest
  | cons c cs' ih =>
      intro fuel rest hf
      match fuel, hf with
      | f + 1, hf =>
          have hrec := ih f rest (by simp at hf ⊢; omega)
          have hstep : escapeString (c :: cs') ++ '"' :: rest =
              escapeChar c ++ (escapeString cs' ++ '"' :: rest) := by
            simp [escapeString]
          by_cases hq : c = '\"'
          · subst hq
            rw [hstep, show escapeChar '\"' = ['\\', '\"'] from rfl]
            rw [show (['\\', '\"'] : List Char) ++ (escapeString cs' ++ '\"' :: rest) =
                '\\' :: '\"' :: (escapeString cs' ++ '\"' :: rest) from rfl]
            rw [stringScan_esc_step, hrec]
            rfl
          · by_cases hb : c = '\\'
            · subst hb
              rw [hstep, show escapeChar '\\' = ['\\', '\\'] from rfl]
              rw [show (['\\', '\\'] : List Char) ++ (escapeString cs' ++ '\"' :: rest) =
                  '\\' :: '\\' :: (escapeString cs' ++ '\"' :: rest) from rfl]
              rw [stringScan_esc_step, hrec]
              rfl
            · by_cases h8 : c = '\x08'
              · subst h8
                rw [hstep, show escapeChar '\x08' = ['\\', 'b'] from rfl]
                rw [show (['\\', 'b'] : List Char) ++ (escapeString cs' ++ '\"' :: rest) =
                    '\\' :: 'b' :: (escapeString cs' ++ '\"' :: rest) from rfl]
                rw [stringScan_esc_step, hrec]
                rfl
              · by_cases hfc : c = '\x0C'
                · subst hfc
                  rw [hstep, show escapeChar '\x0C' = ['\\', 'f'] from rfl]
                  rw [show (['\\', 'f'] : List Char) ++ (escapeString cs' ++ '\"' :: rest) =
                      '\\' :: 'f' :: (escapeString cs' ++ '\"' :: rest) from rfl]
                  rw [stringScan_esc_step, hrec]
                  rfl
                · by_cases hn : c = '\n'
                  · subst hn
                    rw [hstep, show escapeChar '\n' = ['\\', 'n'] from rfl]
                    rw [show (['\\', 'n'] : List Char) ++ (escapeString cs' ++ '\"' :: rest) =
                        '\\' :: 'n' :: (escapeString cs' ++ '\"' :: rest) from rfl]
                    rw [stringScan_esc_step, hrec]
                    rfl
                  · by_cases hr : c = '\r'
                    · subst hr
                      rw [hstep, show escapeChar '\r' = ['\\', 'r'] from rfl]
                      rw [show (['\\', 'r'] : List Char) ++ (escapeString cs' ++ '\"' :: rest) =
                          '\\' :: 'r' :: (escapeString cs' ++ '\"' :: rest) from rfl]
                      rw [stringScan_esc_step, hrec]
                      rfl
                    · by_cases ht : c = '\t'
                      · subst ht
                        rw [hstep, show escapeChar '\t' = ['\\', 't'] from rfl]
                        rw [show (['\\', 't'] : List Char) ++ (escapeString cs' ++ '\"' :: rest) =
                            '\\' :: 't' :: (escapeString cs' ++ '\"' :: rest) from rfl]
                        rw [stringScan_esc_step, hrec]
                        rfl
                      · rw [hstep, escapeChar_single hq hb h8 hfc hn hr ht]
                        rw [show ([c] : List Char) ++ (escapeString cs' ++ '\"' :: rest) =
                            c :: (escapeString cs' ++ '\"' :: rest) from rfl]
                        rw [stringScan_raw_step f c _ hq hb, hrec]
                        rfl


theorem escapeChar_length (c : Char) : 1 ≤ (escapeChar c).length := by
  unfold escapeChar
  repeat' split
  all_goals simp

theorem escapeString_length : ∀ cs : List Char, cs.length ≤ (escapeString cs).length := by
  intro cs
  induction cs with
  | nil => simp [escapeString]
  | cons c t ih =>
      have h1 := escapeChar_length c
      have : escapeString (c :: t) = escapeChar c ++ escapeString t := by
        simp [escapeString]
      rw [this]
      simp only [List.length_append, List.length_cons]
      omega

/-- Scanning a raw character run free of quotes and backslashes (the
form in which object keys are re-parsed) recovers it verbatim. -/
theorem stringScan_rawRun :
    ∀ cs fuel rest, goodKey cs = true → cs.length + 1 ≤ fuel →
      stringScan fuel (cs ++ '"' :: rest) = .ok (cs, rest) := by
  intro cs
  induction cs with
  | nil =>
      intro fuel rest _ hf
      match fuel, hf with
      | f + 1, _ => exact stringScan_quote f rest
  | cons c cs' ih =>
      intro fuel rest hg hf
      match fuel, hf with
      | f + 1, hf =>
          have hgc : ¬(c = '"' ∨ c = '\\') := by
            have := hg
            simp [goodKey] at this
            exact fun h => by
              rcases h with h | h
              · exact absurd h this.1.1
              · exact absurd h this.1.2
          have hg' : goodKey cs' = true := by
            simp [goodKey] at hg ⊢
            exact hg.2
          have hrec := ih f rest hg' (by simp at hf ⊢; omega)
          rw [List.cons_append, stringScan_raw_step f c _ (fun h => hgc (Or.inl h))
            (fun h => hgc (Or.inr h)), hrec]
          rfl

/-- The rendering of a `good` value starts with a non-whitespace
character that is not a closing bracket. -/
theorem rend_cons :
    ∀ v, good v = true → ∃ c t, rend v = c :: t ∧ isJsWs c = false ∧ c ≠ ']' := by
  intro v hv
  cases v with
  | null => exact ⟨'n', _, rfl, by decide, by decide⟩
  | boolean b =>
      cases b
      · exact ⟨'f', "alse".data, by simp [rend], by decide, by decide⟩
      · exact ⟨'t', "rue".data, by simp [rend], by decide, by decide⟩
  | str s => exact ⟨'"', _, rfl, by decide, by decide⟩
  | arr es => exact ⟨'[', _, rfl, by decide, by decide⟩
  | obj kvs => exact ⟨'{', _, rfl, by decide, by decide⟩
  | undef => exact absurd hv (by simp [good])
  | num n =>
      obtain ⟨-, hdig, hne⟩ := natChars_correct n.natAbs
      obtain ⟨d, t, hdt⟩ := List.exists_cons_of_ne_nil hne
      have hd : isDigit d = true := hdig d (by rw [hdt]; simp)
      by_cases hneg : n < 0
      · refine ⟨'-', natChars n.natAbs, ?_, by decide, by decide⟩
        simp [rend, jsNumberString, hneg]
      · refine ⟨d, t, ?_, isDigit_not_ws hd,
          (isDigit_ne hd).2.2.2.2.2.2.2.2.2.1⟩
        rw [show rend (.num n) = jsNumberString n from rfl]
        simp [jsNumberString, hneg, hdt]

theorem joinSep_comma_rendL : ∀ es : List JsValue, joinSep [','] (es.map rend) = rendL es
  | [] => rfl
  | [_] => rfl
  | v :: v2 :: rest => by
      have ih := joinSep_comma_rendL (v2 :: rest)
      simp only [List.map_cons] at ih ⊢
      rw [joinSep, ih, rendL]
      simp

def entryRend (p : String × JsValue) : List Char :=
  '"' :: p.1.data ++ '"' :: ':' :: rend p.2

theorem joinSep_comma_rendE : ∀ kvs : List (String × JsValue),
    joinSep [','] (kvs.map entryRend) = rendE kvs
  | [] => rfl
  | [(_, _)] => rfl
  | (k, v) :: p :: rest => by
      have ih := joinSep_comma_rendE (p :: rest)
      simp only [List.map_cons] at ih ⊢
      rw [joinSep, ih, rendE]
      simp [entryRend]

theorem sizeOf_mem_arr {v : JsValue} {es : List JsValue} (h : v ∈ es) :
    sizeOf v < sizeOf (JsValue.arr es) := by
  have := List.sizeOf_lt_of_mem h
  simp only [JsValue.arr.sizeOf_spec]
  omega

theorem sizeOf_mem_obj {k : String} {v : JsValue} {kvs : List (String × JsValue)}
    (h : (k, v) ∈ kvs) : sizeOf v < sizeOf (JsValue.obj kvs) := by
  have h1 := List.sizeOf_lt_of_mem h
  have h2 : sizeOf (k, v) = 1 + sizeOf k + sizeOf v := by simp
  simp only [JsValue.obj.sizeOf_spec]
  omega

theorem contains_eq_false_of_sizeOf :
    ∀ (stack : List JsValue) (v : JsValue), (∀ x ∈ stack, sizeOf v < sizeOf x) →
      stack.contains v = false
  | [], _, _ => rfl
  | x :: rest, v, h => by
      have hx := h x (by simp)
      have hne : (v == x) = false := by
        rw [Bool.eq_false_iff]
        intro hbe
        have hvx : v = x := eq_of_beq hbe
        subst hvx
        omega
      rw [List.contains_cons]
      simp only [hne, Bool.false_or]
      exact contains_eq_false_of_sizeOf rest v (fun y hy => h y (by simp [hy]))

mutual
/-- On a `good` value the serializer with empty indent computes exactly
the inline rendering `rend`, provided every member of the visitation
stack is strictly larger than the value (true of ancestor stacks), so
that the cycle check cannot fire. -/
theorem stringifyValue_rend : ∀ v, good v = true →
    ∀ stack depth, (∀ x ∈ stack, sizeOf v < sizeOf x) →
    stringifyValue stack [] depth v = .ok (some (rend v))
  | .null, _, _, _, _ => rfl
  | .boolean b, _, _, _, _ => by cases b <;> rfl
  | .num _, _, _, _, _ => rfl
  | .str _, _, _, _, _ => rfl
  | .undef, hv, _, _, _ => absurd hv (by simp [good])
  | .arr es, hv, stack, depth, hst => by
      have hcont := contains_eq_false_of_sizeOf stack (.arr es) hst
      have hes : goodL es = true := by simpa [good] using hv
      have hitems := stringifyItems_rend es hes (JsValue.arr es :: stack) (depth + 1)
        (fun w hw x hx => by
          rcases List.mem_cons.mp hx with rfl | hx
          · exact sizeOf_mem_arr hw
          · exact lt_trans (sizeOf_mem_arr hw) (hst x hx))
      simp only [stringifyValue, hcont, Bool.false_eq_true, if_false, hitems,
        exceptBind_ok, List.isEmpty_nil, if_true]
      rw [joinSep_comma_rendL]
      rfl
  | .obj kvs, hv, stack, depth, hst => by
      have hcont := contains_eq_false_of_sizeOf stack (.obj kvs) hst
      have hkvs : goodE kvs = true := by
        simp [good] at hv
        exact hv.2
      have hents := stringifyEntries_rend kvs hkvs (JsValue.obj kvs :: stack) depth
        (fun p hp x hx => by
          rcases List.mem_cons.mp hx with rfl | hx
          · exact sizeOf_mem_obj (by simpa using hp)
          · exact lt_trans (sizeOf_mem_obj (by simpa using hp)) (hst x hx))
      simp only [stringifyValue, hcont, Bool.false_eq_true, if_false, hents,
        exceptBind_ok, List.isEmpty_nil, if_true]
      rw [joinSep_comma_rendE]
      rfl

theorem stringifyItems_rend : ∀ es, goodL es = true →
    ∀ stack depth, (∀ v ∈ es, ∀ x ∈ stack, sizeOf v < sizeOf x) →
    stringifyItems stack [] depth es = .ok (es.map rend)
  | [], _, _, _, _ => rfl
  | v :: rest, hes, stack, depth, hst => by
      have hv : good v = true := by
        simp [goodL] at hes
        exact hes.1
      have hrest : goodL rest = true := by
        simp [goodL] at hes
        exact hes.2
      have hhd := stringifyValue_rend v hv stack depth (hst v (by simp))
      have htl := stringifyItems_rend rest hrest stack depth
        (fun w hw x hx => hst w (by simp [hw]) x hx)
      simp [stringifyItems, hhd, htl]

theorem stringifyEntries_rend : ∀ kvs, goodE kvs = true →
    ∀ stack depth, (∀ p ∈ kvs, ∀ x ∈ stack, sizeOf p.2 < sizeOf x) →
    stringifyEntries stack [] depth kvs = .ok (kvs.map entryRend)
  | [], _, _, _, _ => rfl
  | (k, v) :: rest, hkvs, stack, depth, hst => by
      have hv : good v = true := by
        simp [goodE] at hkvs
        exact hkvs.1.2
      have hrest : goodE rest = true := by
        simp [goodE] at hkvs
        exact hkvs.2
      have hmem : (∀ x ∈ stack, sizeOf v < sizeOf x) :=
        fun x hx => hst (k, v) (by simp) x hx
      have hkeep := stringifyValue_rend v hv stack depth hmem
      have hval := stringifyValue_rend v hv stack (depth + 1) hmem
      have htl := stringifyEntries_rend rest hrest stack depth
        (fun p hp x hx => hst p (by simp [hp]) x hx)
      simp [stringifyEntries, hkeep, hval, htl, entryRend]

end

/-- `stringify(v)` (no indent) on a `good` value is exactly the inline
rendering. -/
theorem myStringify_rend (v : JsValue) (h : good v = true) :
    myStringify v 0 = .ok (some (String.mk (rend v))) := by
  unfold myStringify
  rw [show List.replicate 0 ' ' = ([] : List Char) from rfl]
  rw [stringifyValue_rend v h [] 0 (fun x hx => absurd hx (List.not_mem_nil x))]
  rfl

theorem parseString_escape (cs : List Char) (f : Nat) (c0 : Char) (rest : List Char)
    (hf : cs.length + 1 ≤ f) :
    parseString f (c0 :: (escapeString cs ++ '"' :: rest)) = .ok (String.mk cs, rest) := by
  show (stringScan f (escapeString cs ++ '"' :: rest)).map _ = _
  rw [stringScan_escape cs f rest hf]
  rfl

theorem parseString_rawKey (k : String) (f : Nat) (c0 : Char) (rest : List Char)
    (hg : goodKey k.data = true) (hf : k.data.length + 1 ≤ f) :
    parseString f (c0 :: (k.data ++ '"' :: rest)) = .ok (k, rest) := by
  show (stringScan f (k.data ++ '"' :: rest)).map _ = _
  rw [stringScan_rawRun k.data f rest hg hf]
  rfl

theorem parseValue_lit_null (f : Nat) (rest : List Char) :
    parseValue none 0 (f + 1) ("null".data ++ rest) = .ok (.null, rest) := by
  rw [show ("null".data ++ rest : List Char) = 'n' :: ("ull".data ++ rest) from rfl]
  simp only [parseValue]
  rw [skipWhitespace_cons_not _ _ (by decide)]
  dsimp only
  rw [if_neg (show ¬(('n' : Char) = '"') by decide),
    if_neg (show ¬(('n' : Char) = '{') by decide),
    if_neg (show ¬(('n' : Char) = '[') by decide),
    if_neg (show ¬(('n' : Char) = 't') by decide),
    if_neg (show ¬(('n' : Char) = 'f') by decide),
    if_pos rfl]
  exact parseLiteral_self "null".data .null rest

theorem parseValue_lit_true (f : Nat) (rest : List Char) :
    parseValue none 0 (f + 1) ("true".data ++ rest) = .ok (.boolean true, rest) := by
  rw [show ("true".data ++ rest : List Char) = 't' :: ("rue".data ++ rest) from rfl]
  simp only [parseValue]
  rw [skipWhitespace_cons_not _ _ (by decide)]
  dsimp only
  rw [if_neg (show ¬(('t' : Char) = '"') by decide),
    if_neg (show ¬(('t' : Char) = '{') by decide),
    if_neg (show ¬(('t' : Char) = '[') by decide),
    if_pos rfl]
  exact parseLiteral_self "true".data (.boolean true) rest

theorem parseValue_lit_false (f : Nat) (rest : List Char) :
    parseValue none 0 (f + 1) ("false".data ++ rest) = .ok (.boolean false, rest) := by
  rw [show ("false".data ++ rest : List Char) = 'f' :: ("alse".data ++ rest) from rfl]
  simp only [parseValue]
  rw [skipWhitespace_cons_not _ _ (by decide)]
  dsimp only
  rw [if_neg (show ¬(('f' : Char) = '"') by decide),
    if_neg (show ¬(('f' : Char) = '{') by decide),
    if_neg (show ¬(('f' : Char) = '[') by decide),
    if_neg (show ¬(('f' : Char) = 't') by decide),
    if_pos rfl]
  exact parseLiteral_self "false".data (.boolean false) rest

theorem parseValue_num_rend (n : Int) (f : Nat) (rest : List Char) (h : delimOk rest) :
    parseValue none 0 (f + 1) (jsNumberString n ++ rest) = .ok (.num n, rest) := by
  obtain ⟨-, hdig, hne⟩ := natChars_correct n.natAbs
  by_cases hneg : n < 0
  · rw [show jsNumberString n ++ rest = '-' :: (natChars n.natAbs ++ rest) from by
      simp [jsNumberString, hneg]]
    simp only [parseValue]
    rw [skipWhitespace_cons_not _ _ (by decide)]
    dsimp only
    rw [if_neg (show ¬(('-' : Char) = '"') by decide),
      if_neg (show ¬(('-' : Char) = '{') by decide),
      if_neg (show ¬(('-' : Char) = '[') by decide),
      if_neg (show ¬(('-' : Char) = 't') by decide),
      if_neg (show ¬(('-' : Char) = 'f') by decide),
      if_neg (show ¬(('-' : Char) = 'n') by decide),
      if_pos (show (decide (('-' : Char) = '-') || isDigit '-') = true by decide)]
    rw [show '-' :: (natChars n.natAbs ++ rest) = jsNumberString n ++ rest from by
      simp [jsNumberString, hneg]]
    exact parseNumber_rend n rest h
  · obtain ⟨d, t, hdt⟩ := List.exists_cons_of_ne_nil hne
    have hd : isDigit d = true := hdig d (by rw [hdt]; simp)
    have hfacts := isDigit_ne hd
    rw [show jsNumberString n ++ rest = d :: (t ++ rest) from by
      simp [jsNumberString, hneg, hdt]]
    simp only [parseValue]
    rw [skipWhitespace_cons_not _ _ (isDigit_not_ws hd)]
    dsimp only
    rw [if_neg hfacts.1, if_neg (show ¬(d = '{') from hfacts.2.1),
      if_neg hfacts.2.2.1, if_neg hfacts.2.2.2.1, if_neg hfacts.2.2.2.2.1,
      if_neg hfacts.2.2.2.2.2.1,
      if_pos (show (decide (d = '-') || isDigit d) = true by simp [hd])]
    rw [show d :: (t ++ rest) = jsNumberString n ++ rest from by
      simp [jsNumberString, hneg, hdt]]
    exact parseNumber_rend n rest h

theorem parseValue_str_rend (s : String) (f : Nat) (rest : List Char)
    (hf : s.data.length + 1 ≤ f) :
    parseValue none 0 (f + 1) (('"' :: escapeString s.data ++ ['"']) ++ rest) =
      .ok (.str s, rest) := by
  rw [show ('"' :: escapeString s.data ++ ['"']) ++ rest =
      '"' :: (escapeString s.data ++ '"' :: rest) from by simp]
  simp only [parseValue]
  rw [skipWhitespace_cons_not _ _ (by decide)]
  dsimp only
  rw [if_pos rfl]
  rw [parseString_escape s.data f '"' rest hf]
  rfl

theorem distinctKeys_key_notin :
    ∀ (acc : List (String × JsValue)) (k : String) (v : JsValue) tl,
      distinctKeys (acc ++ (k, v) :: tl) = true → ∀ p ∈ acc, p.1 ≠ k := by
  intro acc
  induction acc with
  | nil => intro k v tl _ p hp; exact absurd hp (List.not_mem_nil p)
  | cons a acc' ih =>
      intro k v tl h p hp
      obtain ⟨ka, va⟩ := a
      simp only [List.cons_append, distinctKeys, Bool.and_eq_true,
        Bool.not_eq_true'] at h
      obtain ⟨hany, hrest⟩ := h
      simp only [List.append_eq] at hany hrest
      rcases List.mem_cons.mp hp with rfl | hp'
      · intro hk
        have hk' : ka = k := hk
        subst hk'
        have hmem : ((acc' ++ (ka, v) :: tl).any (fun q => q.1 == ka)) = true := by
          rw [List.any_eq_true]
          exact ⟨(ka, v), by simp⟩
        rw [hmem] at hany
        cases hany
      · exact ih k v tl hrest p hp'

theorem objInsert_append (acc : List (String × JsValue)) (k : String) (v : JsValue)
    (h : ∀ p ∈ acc, p.1 ≠ k) : objInsert acc k v = acc ++ [(k, v)] := by
  have hany : acc.any (fun p => p.1 == k) = false := by
    rw [List.any_eq_false]
    intro p hp
    simp [h p hp]
  simp [objInsert, hany]

theorem distinctKeys_snoc :
    ∀ (acc : List (String × JsValue)) (k : String) (v : JsValue) tl,
      distinctKeys (acc ++ (k, v) :: tl) = true →
      distinctKeys ((acc ++ [(k, v)]) ++ tl) = true := by
  intro acc k v tl h
  rw [List.append_assoc, List.singleton_append]
  exact h

mutual
/-- Re-parsing the inline rendering of a `good` value consumes exactly
the rendering and returns the value structurally unchanged, for any
fuel at least the rendering's length and any continuation that starts
with a delimiter (or ends the input). -/
theorem parseValue_rend : ∀ v, good v = true → ∀ fuel rest,
    (rend v).length ≤ fuel → delimOk rest →
    parseValue none 0 fuel (rend v ++ rest) = .ok (v, rest)
  | .null, _, fuel, rest, hf, _ => by
      cases fuel with
      | zero => exact absurd hf (by decide)
      | succ f => exact parseValue_lit_null f rest
  | .boolean true, _, fuel, rest, hf, _ => by
      cases fuel with
      | zero => exact absurd hf (by decide)
      | succ f => exact parseValue_lit_true f rest
  | .boolean false, _, fuel, rest, hf, _ => by
      cases fuel with
      | zero => exact absurd hf (by decide)
      | succ f => exact parseValue_lit_false f rest
  | .undef, hv, _, _, _, _ => absurd hv (by simp [good])
  | .num n, _, fuel, rest, hf, hr => by
      obtain ⟨-, -, hne⟩ := natChars_correct n.natAbs
      have h1 : 1 ≤ (rend (.num n)).length := by
        rw [show rend (.num n) = jsNumberString n from rfl]
        unfold jsNumberString
        split
        · simp
        · cases hcc : natChars n.natAbs with
          | nil => exact absurd hcc hne
          | cons d t => simp
      cases fuel with
      | zero => omega
      | succ f => exact parseValue_num_rend n f rest hr
  | .str s, _, fuel, rest, hf, _ => by
      have hlen : (rend (.str s)).length = (escapeString s.data).length + 2 := by
        simp [rend]
      have hesc := escapeString_length s.data
      cases fuel with
      | zero => omega
      | succ f => exact parseValue_str_rend s f rest (by omega)
  | .arr es, hv, fuel, rest, hf, hr => by
      have hlen : (rend (.arr es)).length = (rendL es).length + 2 := by
        simp [rend]
      cases fuel with
      | zero => omega
      | succ f =>
          rw [show rend (.arr es) ++ rest = '[' :: (rendL es ++ ']' :: rest) from by
            simp [rend]]
          simp only [parseValue]
          rw [skipWhitespace_cons_not _ _ (by decide)]
          dsimp only
          rw [if_neg (show ¬(('[' : Char) = '"') by decide),
            if_neg (show ¬(('[' : Char) = '{') by decide),
            if_pos rfl]
          cases es with
          | nil =>
              rw [show rendL [] ++ ']' :: rest = ']' :: rest from rfl]
              rw [skipWhitespace_cons_not _ _ (by decide)]
              dsimp only
              rw [if_pos rfl]
              rfl
          | cons v0 tl =>
              have hesg : goodL (v0 :: tl) = true := by simpa [good] using hv
              have hg0 : good v0 = true := by
                have h := hesg
                simp [goodL] at h
                exact h.1
              obtain ⟨c0, t0, hc0, hws0, hnb0⟩ := rend_cons v0 hg0
              have hshape : ∃ tail, rendL (v0 :: tl) = c0 :: tail := by
                cases tl with
                | nil => exact ⟨t0, by simp [rendL, hc0]⟩
                | cons v1 tl' =>
                    exact ⟨t0 ++ ',' :: rendL (v1 :: tl'), by simp [rendL, hc0]⟩
              obtain ⟨tail, htail⟩ := hshape
              rw [htail, List.cons_append, skipWhitespace_cons_not _ _ hws0]
              dsimp only
              rw [if_neg hnb0]
              rw [← List.cons_append, ← htail]
              exact parseArrayLoop_rendL (v0 :: tl) hesg (by simp) f [] rest (by omega)
  | .obj kvs, hv, fuel, rest, hf, hr => by
      have hlen : (rend (.obj kvs)).length = (rendE kvs).length + 2 := by
        simp [rend]
      cases fuel with
      | zero => omega
      | succ f =>
          rw [show rend (.obj kvs) ++ rest = '{' :: (rendE kvs ++ '}' :: rest) from by
            simp [rend]]
          simp only [parseValue]
          rw [skipWhitespace_cons_not _ _ (by decide)]
          dsimp only
          rw [if_neg (show ¬(('{' : Char) = '"') by decide),
            if_pos rfl]
          cases kvs with
          | nil =>
              rw [show rendE [] ++ '}' :: rest = '}' :: rest from rfl]
              rw [skipWhitespace_cons_not _ _ (by decide)]
              dsimp only
              rw [if_pos rfl]
              rfl
          | cons p tl =>
              obtain ⟨k, v⟩ := p
              have hge : goodE ((k, v) :: tl) = true := by
                have h := hv
                simp [good] at h
                exact h.2
              have hdk : distinctKeys ((k, v) :: tl) = true := by
                have h := hv
                simp [good] at h
                exact h.1
              rw [show rendE ((k, v) :: tl) ++ '}' :: rest =
                  '"' :: ((rendE ((k, v) :: tl)).tail ++ '}' :: rest) from by
                cases tl <;> simp [rendE]]
              rw [skipWhitespace_cons_not _ _ (by decide)]
              dsimp only
              rw [if_neg (show ¬(('"' : Char) = '}') by decide)]
              rw [show ('"' : Char) :: ((rendE ((k, v) :: tl)).tail ++ '}' :: rest) =
                  rendE ((k, v) :: tl) ++ '}' :: rest from by
                cases tl <;> simp [rendE]]
              have hrec := parseObjectLoop_rendE ((k, v) :: tl) hge (by simp) f [] rest
                (by omega) (by simpa using hdk)
              simpa using hrec

theorem parseArrayLoop_rendL : ∀ es, goodL es = true → es ≠ [] →
    ∀ fuel acc rest, (rendL es).length + 1 ≤ fuel →
    parseArrayLoop none 0 fuel acc (rendL es ++ ']' :: rest) =
      .ok (.arr (acc ++ es), rest)
  | [], _, hne, _, _, _, _ => absurd rfl hne
  | v0 :: tl, hes, _, fuel, acc, rest, hf => by
      have hg0 : good v0 = true := by
        have h := hes
        simp [goodL] at h
        exact h.1
      have hgtl : goodL tl = true := by
        have h := hes
        simp [goodL] at h
        exact h.2
      cases fuel with
      | zero => omega
      | succ f =>
          simp only [parseArrayLoop]
          obtain ⟨c0, t0, hc0, hws0, -⟩ := rend_cons v0 hg0
          cases tl with
          | nil =>
              have hone : rendL [v0] = rend v0 := by simp [rendL]
              rw [hone, hc0, List.cons_append, skipWhitespace_cons_not _ _ hws0,
                ← List.cons_append, ← hc0]
              rw [parseValue_rend v0 hg0 f (']' :: rest)
                (by rw [hone] at hf; omega) (Or.inr (Or.inr rfl))]
              simp only [exceptBind_ok]
              try dsimp only
              rw [skipWhitespace_cons_not _ _ (by decide)]
              dsimp only
              rw [if_pos rfl]
              rfl
          | cons v1 tl' =>
              have hsplit : rendL (v0 :: v1 :: tl') ++ ']' :: rest =
                  rend v0 ++ (',' :: (rendL (v1 :: tl') ++ ']' :: rest)) := by
                simp [rendL]
              have hle : (rendL (v0 :: v1 :: tl')).length =
                  (rend v0).length + 1 + (rendL (v1 :: tl')).length := by
                simp [rendL]
                omega
              rw [hsplit, hc0, List.cons_append, skipWhitespace_cons_not _ _ hws0,
                ← List.cons_append, ← hc0]
              rw [parseValue_rend v0 hg0 f (',' :: (rendL (v1 :: tl') ++ ']' :: rest))
                (by omega) (Or.inl rfl)]
              simp only [exceptBind_ok]
              try dsimp only
              rw [skipWhitespace_cons_not _ _ (by decide)]
              dsimp only
              rw [if_neg (show ¬((',' : Char) = ']') by decide), if_pos rfl]
              rw [parseArrayLoop_rendL (v1 :: tl') hgtl (by simp) f (acc ++ [v0]) rest
                (by omega)]
              simp

theorem parseObjectLoop_rendE : ∀ kvs, goodE kvs = true → kvs ≠ [] →
    ∀ fuel acc rest, (rendE kvs).length + 1 ≤ fuel →
    distinctKeys (acc ++ kvs) = true →
    parseObjectLoop none 0 fuel acc (rendE kvs ++ '}' :: rest) =
      .ok (.obj (acc ++ kvs), rest)
  | [], _, hne, _, _, _, _, _ => absurd rfl hne
  | (k, v) :: tl, hkv, _, fuel, acc, rest, hf, hdk => by
      have hgk : goodKey k.data = true := by
        have h := hkv
        simp [goodE] at h
        exact h.1.1
      have hgv : good v = true := by
        have h := hkv
        simp [goodE] at h
        exact h.1.2
      have hgtl : goodE tl = true := by
        have h := hkv
        simp [goodE] at h
        exact h.2
      cases fuel with
      | zero => omega
      | succ f =>
          obtain ⟨c0, t0, hc0, hws0, -⟩ := rend_cons v hgv
          cases tl with
          | nil =>
              have hle : (rendE [(k, v)]).length =
                  k.data.length + 3 + (rend v).length := by
                simp [rendE]
                omega
              rw [show rendE [(k, v)] ++ '}' :: rest =
                  '"' :: (k.data ++ '"' :: (':' :: (rend v ++ '}' :: rest))) from by
                simp [rendE]]
              simp only [parseObjectLoop]
              rw [skipWhitespace_cons_not _ _ (by decide)]
              rw [parseString_rawKey k f '"' _ hgk (by omega)]
              simp only [exceptBind_ok]
              try dsimp only
              rw [skipWhitespace_cons_not _ _ (by decide)]
              dsimp only
              rw [if_pos rfl]
              rw [hc0, List.cons_append, skipWhitespace_cons_not _ _ hws0,
                ← List.cons_append, ← hc0]
              rw [parseValue_rend v hgv f ('}' :: rest) (by omega)
                (Or.inr (Or.inl rfl))]
              simp only [exceptBind_ok]
              try dsimp only
              rw [objInsert_append acc k v (distinctKeys_key_notin acc k v [] hdk)]
              rw [skipWhitespace_cons_not _ _ (by decide)]
              dsimp only
              rw [if_pos rfl]
              rfl
          | cons p tl' =>
              have hle : (rendE ((k, v) :: p :: tl')).length =
                  k.data.length + 4 + (rend v).length + (rendE (p :: tl')).length := by
                simp [rendE]
                omega
              rw [show rendE ((k, v) :: p :: tl') ++ '}' :: rest =
                  '"' :: (k.data ++ '"' :: (':' :: (rend v ++
                    ',' :: (rendE (p :: tl') ++ '}' :: rest)))) from by
                simp [rendE]]
              simp only [parseObjectLoop]
              rw [skipWhitespace_cons_not _ _ (by decide)]
              rw [parseString_rawKey k f '"' _ hgk (by omega)]
              simp only [exceptBind_ok]
              try dsimp only
              rw [skipWhitespace_cons_not _ _ (by decide)]
              dsimp only
              rw [if_pos rfl]
              rw [hc0, List.cons_append, skipWhitespace_cons_not _ _ hws0,
                ← List.cons_append, ← hc0]
              rw [parseValue_rend v hgv f (',' :: (rendE (p :: tl') ++ '}' :: rest))
                (by omega) (Or.inl rfl)]
              simp only [exceptBind_ok]
              try dsimp only
              rw [objInsert_append acc k v (distinctKeys_key_notin acc k v (p :: tl') hdk)]
              rw [skipWhitespace_cons_not _ _ (by decide)]
              dsimp only
              rw [if_neg (show ¬((',' : Char) = '}') by decide), if_pos rfl]
              rw [parseObjectLoop_rendE (p :: tl') hgtl (by simp) f (acc ++ [(k, v)]) rest
                (by omega) (distinctKeys_snoc acc k v (p :: tl') hdk)]
              simp
end

/-- Parsing the rendering of a `good` value yields the value back. -/
theorem myParse_rend (v : JsValue) (h : good v = true) :
    myParse (String.mk (rend v)) = .ok v := by
  unfold myParse myParseAux
  rw [show (String.mk (rend v)).data = rend v from rfl]
  rw [show (String.mk (rend v)).length = (rend v).length from rfl]
  have hpv := parseValue_rend v h ((rend v).length + 1) [] (by omega) trivial
  rw [List.append_nil] at hpv
  rw [hpv]
  simp only [exceptBind_ok]
  rfl

/-- C1: for every value built from Null, Boolean, Number, String, Array
and Object — with the modelling-side restrictions that object key sets
are duplicate-free (as own keys of a JavaScript object always are) and
that keys contain neither a double quote nor a backslash — serializing
with no transform and no indent succeeds and parsing the output
recovers the value exactly: string contents, array order, object key
set and order, and number values.  (`claim_C1_cex` shows the key
restriction is necessary: the serializer does not escape keys.) -/
theorem claim_C1 :
    ∀ v : JsValue, good v = true →
      ∃ t : String, myStringify v 0 = .ok (some t) ∧ myParse t = .ok v :=
  fun v h => ⟨String.mk (rend v), myStringify_rend v h, myParse_rend v h⟩

theorem claim_C1_witness :
    (good (JsValue.obj [("a", JsValue.arr [JsValue.num (-12), JsValue.str "x\ny",
        JsValue.null]), ("b", JsValue.boolean false), ("c", JsValue.obj [])]) = true) ∧
    (∃ t : String,
      myStringify (JsValue.obj [("a", JsValue.arr [JsValue.num (-12), JsValue.str "x\ny",
        JsValue.null]), ("b", JsValue.boolean false), ("c", JsValue.obj [])]) 0 =
          .ok (some t) ∧
      myParse t = .ok (JsValue.obj [("a", JsValue.arr [JsValue.num (-12),
        JsValue.str "x\ny", JsValue.null]), ("b", JsValue.boolean false),
        ("c", JsValue.obj [])])) :=
  ⟨by decide, claim_C1 _ (by decide)⟩

/-- C1 counterexample: for the legitimate JavaScript value
`{"x\"y": null}` — an object whose key contains a double quote — the
serializer emits the malformed text `{"x"y":null}` (the key is not
escaped), and parsing that text fails, so the round-trip property as
claimed (for **every** cycle-free value of the supported kinds) is
false. -/
theorem claim_C1_cex :
    myStringify (.obj [("x\"y", .null)]) 0 =
      .ok (some "\x7b\"x\"y\":null\x7d") ∧
    myParse "\x7b\"x\"y\":null\x7d" = .error (.syntaxError "Expected \":\"") := by
  constructor <;> decide

/-! ## Serializer with a replacer

Translation of `myStringify` with a `replacer` function supplied.
`stringifyValue(key, value, depth)` first replaces
`value = applyReplacer(key, value)` and then dispatches on the replaced
value; `stringifyArray` maps every element through
`stringifyValue("", item, depth + 1)` — the key argument for array
elements is always the empty string, exactly as for the root call
`stringifyValue("", value, 0)` — while `stringifyObject` passes each
entry's own key.  A replacer may answer an arbitrary (even larger)
value, so this recursion has no structural bound in the source; every
recursive call consumes one unit of fuel and `StringifyError.hang`
models a non-terminating run. -/

abbrev Replacer := String → JsValue → JsValue

mutual
def stringifyValueR (r : Replacer) (ind : List Char) :
    Nat → List JsValue → String → Nat → JsValue →
    Except StringifyError (Option (List Char))
  | 0, _, _, _, _ => .error .hang
  | fuel + 1, stack, key, depth, v =>
      match r key v with
      | .null => .ok (some "null".data)
      | .str s => .ok (some ('"' :: escapeString s.data ++ ['"']))
      | .num n => .ok (some (jsNumberString n))
      | .boolean b => .ok (some (if b then "true".data else "false".data))
      | .arr es =>
          if stack.contains (.arr es) then .error .cyclic
          else do
            let parts ← stringifyItemsR r ind fuel (JsValue.arr es :: stack)
              (depth + 1) es
            let body := joinSep
              (if ind.isEmpty then [','] else ',' :: '\n' :: indentRep ind (depth + 1))
              parts
            .ok (some ('[' ::
              (if ind.isEmpty then body
               else '\n' :: indentRep ind (depth + 1) ++ body ++
                 '\n' :: indentRep ind depth)
              ++ [']']))
      | .obj kvs =>
          if stack.contains (.obj kvs) then .error .cyclic
          else do
            let parts ← stringifyEntriesR r ind fuel (JsValue.obj kvs :: stack)
              depth kvs
            let body := joinSep (if ind.isEmpty then [','] else [',', '\n']) parts
            .ok (some ('{' ::
              (if ind.isEmpty then body
               else '\n' :: body ++ '\n' :: indentRep ind depth)
              ++ ['}']))
      | .undef => .ok none

def stringifyItemsR (r : Replacer) (ind : List Char) :
    Nat → List JsValue → Nat → List JsValue →
    Except StringifyError (List (List Char))
  | 0, _, _, _ => .error .hang
  | _ + 1, _, _, [] => .ok []
  | fuel + 1, stack, depth, v :: rest => do
      let c ← stringifyValueR r ind fuel stack "" depth v
      let tail ← stringifyItemsR r ind fuel stack depth rest
      .ok (c.getD "null".data :: tail)

def stringifyEntriesR (r : Replacer) (ind : List Char) :
    Nat → List JsValue → Nat → List (String × JsValue) →
    Except StringifyError (List (List Char))
  | 0, _, _, _ => .error .hang
  | _ + 1, _, _, [] => .ok []
  | fuel + 1, stack, depth, (k, v) :: rest => do
      let keep ← stringifyValueR r ind fuel stack k depth v
      match keep with
      | none => stringifyEntriesR r ind fuel stack depth rest
      | some _ => do
          let c ← stringifyValueR r ind fuel stack k (depth + 1) v
          let tail ← stringifyEntriesR r ind fuel stack depth rest
          .ok (((if ind.isEmpty then [] else indentRep ind (depth + 1))
              ++ '"' :: k.data ++ ['"', ':']
              ++ (if ind.isEmpty then [] else [' '])
              ++ c.getD "undefined".data) :: tail)
end

/-- `myStringify(value, replacer, space)` with a replacer function. -/
def myStringifyWith (r : Replacer) (fuel : Nat) (value : JsValue) (space : Nat) :
    Except StringifyError (Option String) :=
  (stringifyValueR r (List.replicate space ' ') fuel [] "" 0 value).map
    (fun o => o.map (fun cs => String.mk cs))

mutual
/-- Values containing no object anywhere: only leaves and arrays. -/
def noObj : JsValue → Bool
  | .obj _ => false
  | .arr es => noObjL es
  | _ => true
def noObjL : List JsValue → Bool
  | [] => true
  | v :: rest => noObj v && noObjL rest
end

example : myStringifyWith (fun _ x => x) 10
    (.arr [.num 1, .obj [("a", .num 2)]]) 0 =
  .ok (some "[1,\x7b\"a\":2\x7d]") := by decide

example : myStringifyWith (fun k x => if k == "" then x else .null) 10
    (.obj [("a", .num 2)]) 0 = .ok (some "\x7b\"a\":null\x7d") := by decide

mutual
/-- Because the serializer hands the empty-string key to the replacer at
the root and at every array element (and object values never occur in a
`noObj` tree), only the replacer's behaviour at key `""` can influence
the output. -/
theorem stringifyValueR_emptyKey : ∀ (r1 r2 : Replacer),
    (∀ x, r1 "" x = r2 "" x) →
    (∀ x, noObj x = true → noObj (r1 "" x) = true) →
    ∀ fuel ind stack depth v, noObj v = true →
    stringifyValueR r1 ind fuel stack "" depth v =
      stringifyValueR r2 ind fuel stack "" depth v
  | _, _, _, _, 0, _, _, _, _, _ => rfl
  | r1, r2, hagree, hno, fuel + 1, ind, stack, depth, v, hv => by
      have hw : noObj (r2 "" v) = true := by
        rw [← hagree v]
        exact hno v hv
      simp only [stringifyValueR]
      rw [hagree v]
      cases hrw : r2 "" v with
      | null => rfl
      | str s => rfl
      | num n => rfl
      | boolean b => rfl
      | undef => rfl
      | obj kvs =>
          rw [hrw] at hw
          simp [noObj] at hw
      | arr es =>
          rw [hrw] at hw
          have hes : noObjL es = true := by simpa [noObj] using hw
          dsimp only
          by_cases hc : stack.contains (JsValue.arr es) = true
          · rw [if_pos hc, if_pos hc]
          · rw [if_neg hc, if_neg hc]
            rw [stringifyItemsR_emptyKey r1 r2 hagree hno fuel ind
              (JsValue.arr es :: stack) (depth + 1) es hes]

theorem stringifyItemsR_emptyKey : ∀ (r1 r2 : Replacer),
    (∀ x, r1 "" x = r2 "" x) →
    (∀ x, noObj x = true → noObj (r1 "" x) = true) →
    ∀ fuel ind stack depth es, noObjL es = true →
    stringifyItemsR r1 ind fuel stack depth es =
      stringifyItemsR r2 ind fuel stack depth es
  | _, _, _, _, 0, _, _, _, _, _ => rfl
  | _, _, _, _, _ + 1, _, _, _, [], _ => rfl
  | r1, r2, hagree, hno, fuel + 1, ind, stack, depth, v :: rest, hes => by
      have hv : noObj v = true := by
        have h := hes
        simp [noObjL] at h
        exact h.1
      have hrest : noObjL rest = true := by
        have h := hes
        simp [noObjL] at h
        exact h.2
      simp only [stringifyItemsR]
      rw [stringifyValueR_emptyKey r1 r2 hagree hno fuel ind stack depth v hv,
        stringifyItemsR_emptyKey r1 r2 hagree hno fuel ind stack depth rest hrest]
end

/-- C10: with a transform supplied, the serializer invokes it with the
empty string as the key argument for the root and for every array
element at any depth (never the element's index), so on object-free
data two transforms that agree at key `""` — however differently they
treat non-empty keys — produce identical output: the transform cannot
distinguish array positions from one another or from the root. -/
theorem claim_C10 (r1 r2 : Replacer) (fuel space : Nat) (v : JsValue)
    (hagree : ∀ x, r1 "" x = r2 "" x)
    (hno : ∀ x, noObj x = true → noObj (r1 "" x) = true)
    (hv : noObj v = true) :
    myStringifyWith r1 fuel v space = myStringifyWith r2 fuel v space := by
  unfold myStringifyWith
  rw [stringifyValueR_emptyKey r1 r2 hagree hno fuel (List.replicate space ' ')
    [] 0 v hv]

theorem claim_C10_witness :
    (∀ x : JsValue,
      (fun (k : String) (x : JsValue) => if k == "" then x else JsValue.null) "" x =
      (fun (k : String) (x : JsValue) => if k == "" then x else JsValue.boolean true)
        "" x) ∧
    (∀ x : JsValue, noObj x = true →
      noObj ((fun (k : String) (x : JsValue) => if k == "" then x else JsValue.null)
        "" x) = true) ∧
    noObj (JsValue.arr [JsValue.arr [JsValue.num 1, JsValue.num 2],
      JsValue.num 3]) = true ∧
    myStringifyWith (fun k x => if k == "" then x else JsValue.null) 10
        (JsValue.arr [JsValue.arr [JsValue.num 1, JsValue.num 2], JsValue.num 3]) 0 =
      myStringifyWith (fun k x => if k == "" then x else JsValue.boolean true) 10
        (JsValue.arr [JsValue.arr [JsValue.num 1, JsValue.num 2], JsValue.num 3]) 0 :=
  ⟨fun x => rfl, fun x hx => by simpa using hx, by decide,
    claim_C10 _ _ 10 0 _ (fun x => rfl) (fun x hx => by simpa using hx) (by decide)⟩

/-! ## Heap model: reference identity, sharing and cycles

The tree type `JsValue` cannot express the self-referential values the
cycle check exists for, so `stringifyValue`'s cycle handling is checked
against a heap embedding: containers live at numeric addresses in a
heap, values refer to them by address, and the source's
`stack.includes(value)` identity test is address equality against the
stack of addresses currently being visited — checked when the reference
is encountered, before descending into the already-active container.  A
run that never terminates in JavaScript exhausts any fuel
(`StringifyError.hang`); on cyclic inputs the theorems below show the
run never succeeds, and on the spec's own example it returns exactly
the cyclic-reference error. -/

inductive HVal where
  | null
  | boolean (b : Bool)
  | num (n : Int)
  | str (s : String)
  | undef
  | ref (a : Nat)
  deriving DecidableEq

inductive HNode where
  | arrN (elems : List HVal)
  | objN (entries : List (String × HVal))
  deriving DecidableEq

abbrev Heap := List HNode

mutual
def strValH (H : Heap) (ind : List Char) :
    Nat → List Nat → Nat → HVal → Except StringifyError (Option (List Char))
  | 0, _, _, _ => .error .hang
  | fuel + 1, stack, depth, v =>
      match v with
      | .null => .ok (some "null".data)
      | .str s => .ok (some ('"' :: escapeString s.data ++ ['"']))
      | .num n => .ok (some (jsNumberString n))
      | .boolean b => .ok (some (if b then "true".data else "false".data))
      | .undef => .ok none
      | .ref a =>
          if stack.contains a then .error .cyclic
          else
            match H[a]? with
            | none => .ok none
            | some (.arrN es) => do
                let parts ← strItemsH H ind fuel (a :: stack) (depth + 1) es
                let body := joinSep
                  (if ind.isEmpty then [','] else
                    ',' :: '\n' :: indentRep ind (depth + 1))
                  parts
                .ok (some ('[' ::
                  (if ind.isEmpty then body
                   else '\n' :: indentRep ind (depth + 1) ++ body ++
                     '\n' :: indentRep ind depth)
                  ++ [']']))
            | some (.objN kvs) => do
                let parts ← strEntriesH H ind fuel (a :: stack) depth kvs
                let body := joinSep (if ind.isEmpty then [','] else [',', '\n']) parts
                .ok (some ('{' ::
                  (if ind.isEmpty then body
                   else '\n' :: body ++ '\n' :: indentRep ind depth)
                  ++ ['}']))

def strItemsH (H : Heap) (ind : List Char) :
    Nat → List Nat → Nat → List HVal → Except StringifyError (List (List Char))
  | 0, _, _, _ => .error .hang
  | _ + 1, _, _, [] => .ok []
  | fuel + 1, stack, depth, v :: rest => do
      let c ← strValH H ind fuel stack depth v
      let tail ← strItemsH H ind fuel stack depth rest
      .ok (c.getD "null".data :: tail)

def strEntriesH (H : Heap) (ind : List Char) :
    Nat → List Nat → Nat → List (String × HVal) →
    Except StringifyError (List (List Char))
  | 0, _, _, _ => .error .hang
  | _ + 1, _, _, [] => .ok []
  | fuel + 1, stack, depth, (k, v) :: rest => do
      let keep ← strValH H ind fuel stack depth v
      match keep with
      | none => strEntriesH H ind fuel stack depth rest
      | some _ => do
          let c ← strValH H ind fuel stack (depth + 1) v
          let tail ← strEntriesH H ind fuel stack depth rest
          .ok (((if ind.isEmpty then [] else indentRep ind (depth + 1))
              ++ '"' :: k.data ++ ['"', ':']
              ++ (if ind.isEmpty then [] else [' '])
              ++ c.getD "undefined".data) :: tail)
end

/-- `myStringify(value, null, space)` over the heap model. -/
def myStringifyH (H : Heap) (fuel : Nat) (value : HVal) (space : Nat) :
    Except StringifyError (Option String) :=
  (strValH H (List.replicate space ' ') fuel [] 0 value).map
    (fun o => o.map (fun cs => String.mk cs))

/-- The addresses a node refers to directly (its ownership edges). -/
def childRefs : HNode → List Nat
  | .arrN es => es.filterMap (fun v => match v with | .ref a => some a | _ => none)
  | .objN kvs =>
      kvs.filterMap (fun p => match p.2 with | .ref a => some a | _ => none)

/-- One ownership edge between heap addresses. -/
def edge (H : Heap) (a b : Nat) : Prop :=
  ∃ n, H[a]? = some n ∧ b ∈ childRefs n

/-- An address that lies on a reference cycle: one edge followed by a
path back to itself. -/
def onCycle (H : Heap) (c : Nat) : Prop :=
  ∃ d, edge H c d ∧ Relation.ReflTransGen (edge H) d c

/-- The address a value refers to, if any. -/
def valRefs : HVal → List Nat
  | .ref a => [a]
  | _ => []

/-- From `v` some address on a reference cycle is reachable. -/
def cyclicFrom (H : Heap) (v : HVal) : Prop :=
  ∃ a c, a ∈ valRefs v ∧ Relation.ReflTransGen (edge H) a c ∧ onCycle H c

example : myStringifyH [HNode.objN [("self", HVal.ref 0)]] 5 (HVal.ref 0) 0 =
    .error .cyclic := by decide

example : myStringifyH [HNode.objN [("a", HVal.ref 1)], HNode.arrN [HVal.num 1]] 5
    (HVal.ref 0) 0 = .ok (some "\x7b\"a\":[1]\x7d") := by decide

mutual
/-- If a reference cycle is reachable from `v`, serializing `v` never
succeeds: no fuel, visitation stack or depth makes the run return
`.ok`. -/
theorem strValH_cyclic : ∀ (H : Heap) (ind : List Char) fuel stack depth v,
    cyclicFrom H v → ∀ o, strValH H ind fuel stack depth v ≠ .ok o
  | H, ind, 0, stack, depth, v, _, o => by simp [strValH]
  | H, ind, fuel + 1, stack, depth, v, hcyc, o => by
      obtain ⟨a, c, hav, hac, hcy⟩ := hcyc
      cases v with
      | null => exact absurd hav (by simp [valRefs])
      | boolean b => exact absurd hav (by simp [valRefs])
      | num n => exact absurd hav (by simp [valRefs])
      | str s => exact absurd hav (by simp [valRefs])
      | undef => exact absurd hav (by simp [valRefs])
      | ref a0 =>
          have ha : a = a0 := by simpa [valRefs] using hav
          subst ha
          simp only [strValH]
          by_cases hc : stack.contains a = true
          · rw [if_pos hc]
            simp
          · rw [if_neg hc]
            have hsome : ∃ n, H[a]? = some n := by
              rcases Relation.ReflTransGen.cases_head hac with heq | ⟨b, hab, hbc⟩
              · subst heq
                obtain ⟨d, ⟨n, hn, -⟩, -⟩ := hcy
                exact ⟨n, hn⟩
              · obtain ⟨n, hn, -⟩ := hab
                exact ⟨n, hn⟩
            obtain ⟨n, hn⟩ := hsome
            rw [hn]
            have hchild : ∃ b, b ∈ childRefs n ∧
                Relation.ReflTransGen (edge H) b c := by
              rcases Relation.ReflTransGen.cases_head hac with heq | ⟨b, hab, hbc⟩
              · subst heq
                obtain ⟨d, hcd, hdc⟩ := hcy
                obtain ⟨n', hn', hmem⟩ := hcd
                rw [hn] at hn'
                injection hn' with hnn
                subst hnn
                exact ⟨d, hmem, hdc⟩
              · obtain ⟨n', hn', hmem⟩ := hab
                rw [hn] at hn'
                injection hn' with hnn
                subst hnn
                exact ⟨b, hmem, hbc⟩
            obtain ⟨b, hbmem, hbc⟩ := hchild
            cases n with
            | arrN es =>
                have hex : ∃ w ∈ es, cyclicFrom H w := by
                  have hmem' := hbmem
                  simp only [childRefs, List.mem_filterMap] at hmem'
                  obtain ⟨w, hw, hwb⟩ := hmem'
                  refine ⟨w, hw, ?_⟩
                  cases w with
                  | ref a1 =>
                      have hb : a1 = b := by simpa using hwb
                      subst hb
                      exact ⟨a1, c, by simp [valRefs], hbc, hcy⟩
                  | null => simp at hwb
                  | boolean b2 => simp at hwb
                  | num n2 => simp at hwb
                  | str s2 => simp at hwb
                  | undef => simp at hwb
                dsimp only
                intro hok
                cases hres : strItemsH H ind fuel (a :: stack) (depth + 1) es with
                | error e => rw [hres] at hok; simp at hok
                | ok parts =>
                    exact strItemsH_cyclic H ind fuel (a :: stack) (depth + 1) es
                      hex parts hres
            | objN kvs =>
                have hex : ∃ p ∈ kvs, cyclicFrom H p.2 := by
                  have hmem' := hbmem
                  simp only [childRefs, List.mem_filterMap] at hmem'
                  obtain ⟨p, hp, hwb⟩ := hmem'
                  refine ⟨p, hp, ?_⟩
                  cases hp2 : p.2 with
                  | ref a1 =>
                      rw [hp2] at hwb
                      have hb : a1 = b := by simpa using hwb
                      subst hb
                      exact ⟨a1, c, by simp [valRefs], hbc, hcy⟩
                  | null => rw [hp2] at hwb; simp at hwb
                  | boolean b2 => rw [hp2] at hwb; simp at hwb
                  | num n2 => rw [hp2] at hwb; simp at hwb
                  | str s2 => rw [hp2] at hwb; simp at hwb
                  | undef => rw [hp2] at hwb; simp at hwb
                dsimp only
                intro hok
                cases hres : strEntriesH H ind fuel (a :: stack) depth kvs with
                | error e => rw [hres] at hok; simp at hok
                | ok parts =>
                    exact strEntriesH_cyclic H ind fuel (a :: stack) depth kvs
                      hex parts hres

theorem strItemsH_cyclic : ∀ (H : Heap) (ind : List Char) fuel stack depth es,
    (∃ w ∈ es, cyclicFrom H w) → ∀ l, strItemsH H ind fuel stack depth es ≠ .ok l
  | H, ind, 0, stack, depth, es, _, l => by simp [strItemsH]
  | H, ind, fuel + 1, stack, depth, [], hex, l => by
      obtain ⟨w, hw, -⟩ := hex
      exact absurd hw (List.not_mem_nil w)
  | H, ind, fuel + 1, stack, depth, v :: rest, hex, l => by
      simp only [strItemsH]
      intro hok
      cases hv : strValH H ind fuel stack depth v with
      | error e => rw [hv] at hok; simp at hok
      | ok c =>
          rw [hv] at hok
          simp only [exceptBind_ok] at hok
          cases hrest : strItemsH H ind fuel stack depth rest with
          | error e => rw [hrest] at hok; simp at hok
          | ok tail =>
              obtain ⟨w, hwmem, hwc⟩ := hex
              rcases List.mem_cons.mp hwmem with rfl | hwmem'
              · exact strValH_cyclic H ind fuel stack depth w hwc c hv
              · exact strItemsH_cyclic H ind fuel stack depth rest
                  ⟨w, hwmem', hwc⟩ tail hrest

theorem strEntriesH_cyclic : ∀ (H : Heap) (ind : List Char) fuel stack depth kvs,
    (∃ p ∈ kvs, cyclicFrom H p.2) → ∀ l, strEntriesH H ind fuel stack depth kvs ≠ .ok l
  | H, ind, 0, stack, depth, kvs, _, l => by simp [strEntriesH]
  | H, ind, fuel + 1, stack, depth, [], hex, l => by
      obtain ⟨p, hp, -⟩ := hex
      exact absurd hp (List.not_mem_nil p)
  | H, ind, fuel + 1, stack, depth, (k, v) :: rest, hex, l => by
      simp only [strEntriesH]
      intro hok
      obtain ⟨p, hpmem, hpc⟩ := hex
      rcases List.mem_cons.mp hpmem with rfl | hpmem'
      · cases hv : strValH H ind fuel stack depth v with
        | error e => rw [hv] at hok; simp at hok
        | ok c => exact strValH_cyclic H ind fuel stack depth v hpc c hv
      · cases hv : strValH H ind fuel stack depth v with
        | error e => rw [hv] at hok; simp at hok
        | ok keep =>
            rw [hv] at hok
            simp only [exceptBind_ok] at hok
            cases keep with
            | none =>
                exact strEntriesH_cyclic H ind fuel stack depth rest
                  ⟨p, hpmem', hpc⟩ l hok
            | some t =>
                dsimp only at hok
                cases hv2 : strValH H ind fuel stack (depth + 1) v with
                | error e => rw [hv2] at hok; simp at hok
                | ok c2 =>
                    rw [hv2] at hok
                    simp only [exceptBind_ok] at hok
                    cases hrest : strEntriesH H ind fuel stack depth rest with
                    | error e => rw [hrest] at hok; simp at hok
                    | ok tail =>
                        exact strEntriesH_cyclic H ind fuel stack depth rest
                          ⟨p, hpmem', hpc⟩ tail hrest
end

/-- C5: whenever an array or object is reachable from itself through
ownership edges (heap model, identity = address equality), `stringify`
never returns a result — the run aborts with no partial output for any
amount of fuel, any indent and any stack state — and on the spec's own
example `a = \x7b\x7d; a.self = a` the result is exactly the
cyclic-reference error, raised when the already-active address is seen
again before descending into it. -/
theorem claim_C5 :
    (∀ (H : Heap) (fuel space : Nat) (v : HVal), cyclicFrom H v →
      ∀ o, myStringifyH H fuel v space ≠ .ok o) ∧
    myStringifyH [HNode.objN [("self", HVal.ref 0)]] 5 (HVal.ref 0) 0 =
      .error .cyclic := by
  constructor
  · intro H fuel space v hcyc o hok
    unfold myStringifyH at hok
    cases hres : strValH H (List.replicate space ' ') fuel [] 0 v with
    | error e => rw [hres] at hok; simp at hok
    | ok c => exact strValH_cyclic H _ fuel [] 0 v hcyc c hres
  · decide

theorem claim_C5_witness :
    cyclicFrom [HNode.objN [("self", HVal.ref 0)]] (HVal.ref 0) ∧
    (∀ o, myStringifyH [HNode.objN [("self", HVal.ref 0)]] 9 (HVal.ref 0) 0 ≠
      .ok o) :=
  have hcyc : cyclicFrom [HNode.objN [("self", HVal.ref 0)]] (HVal.ref 0) :=
    ⟨0, 0, by simp [valRefs], Relation.ReflTransGen.refl,
      ⟨0, ⟨HNode.objN [("self", HVal.ref 0)], rfl, by simp [childRefs]⟩,
        Relation.ReflTransGen.refl⟩⟩
  ⟨hcyc, claim_C5.1 _ 9 0 _ hcyc⟩
